import Mathlib

/-!
Verification of the LyricsFlow forced-alignment core (`LyricApp/force_mapper.py`).

The embedding models Python floats by rational numbers (ideal real
arithmetic); `round(x, 3)` is modelled by `round3` (round half to even at
three decimal places, as CPython's `round`).  `None` timestamps are
modelled by `Option ℚ`.  The `difflib.SequenceMatcher` machinery used by
`force_align` (with `isjunk = None`, `autojunk = True`) is embedded in
full, including the autojunk "popular element" rule.
-/

namespace LyricsFlow

/-- Round half to even to the nearest integer, as Python's builtin `round`. -/
def rhe (x : ℚ) : ℤ :=
  if x - ⌊x⌋ = 1/2 then (if ⌊x⌋ % 2 = 0 then ⌊x⌋ else ⌊x⌋ + 1) else round x

/-- `round(q, 3)`: round to three decimal places. -/
def round3 (q : ℚ) : ℚ := (rhe (q * 1000) : ℚ) / 1000

/-- A rational lies on the millisecond grid (is an exact three-decimal value). -/
def Grid (q : ℚ) : Prop := ∃ n : ℤ, q = (n : ℚ) / 1000

/-- Python `str.strip()` on a character list: drop whitespace from both ends. -/
def trimChars (cs : List Char) : List Char :=
  ((cs.dropWhile Char.isWhitespace).reverse.dropWhile Char.isWhitespace).reverse

/-- `clean_word`: remove every character that is not a word character or
whitespace, lowercase, and strip surrounding whitespace (ASCII reading of
`re.sub(r'[^\w\s]', '', word).lower().strip()`). -/
def clean_word (w : String) : String :=
  String.mk (trimChars
    ((w.data.filter (fun c => c.isAlphanum || c == '_' || c.isWhitespace)).map Char.toLower))

/-- Accumulator pass for Python `str.split()` with no separator: split on
whitespace runs, dropping empty pieces (`cur` holds the current word,
reversed). -/
def splitWordsAux : List Char → List Char → List String
  | [], cur => if cur.isEmpty then [] else [String.mk cur.reverse]
  | c :: cs, cur =>
    if c.isWhitespace then
      (if cur.isEmpty then [] else [String.mk cur.reverse]) ++ splitWordsAux cs []
    else splitWordsAux cs (c :: cur)

/-- Python `str.split()` with no separator. -/
def splitWords (text : String) : List String := splitWordsAux text.data []

/-- One recognized word of the Whisper JSON: `{word, start, end, score}`.
The `score` field is never read by `force_align` and is omitted. -/
structure WhisperWord where
  word : String
  start : ℚ
  end_ : ℚ
deriving DecidableEq, Repr

instance : Inhabited WhisperWord := ⟨⟨"", 0, 0⟩⟩

/-- One output record `{word, start, end, match}` of `force_align`;
`start`/`end` are `none` (Python `None`) until resolved.  The Python dict
key `match` is the field `matched`. -/
structure SyncedWord where
  word : String
  start : Option ℚ
  end_ : Option ℚ
  matched : Bool
deriving DecidableEq, Repr

instance : Inhabited SyncedWord := ⟨⟨"", none, none, false⟩⟩

/-! ### difflib.SequenceMatcher -/

/-- `difflib.__chain_b`: the indices `j` with `b[j] = x`, in increasing order. -/
def b2jRaw {α : Type} [DecidableEq α] (b : List α) (x : α) : List Nat :=
  (List.range b.length).filter (fun j => decide (b[j]? = some x))

/-- `b2j` lookup including the autojunk rule of
`SequenceMatcher(None, a, b)`: when `len b ≥ 200`, elements occurring more
than `len b // 100 + 1` times are "popular" and removed from `b2j`. -/
def b2j {α : Type} [DecidableEq α] (b : List α) (x : α) : List Nat :=
  if 200 ≤ b.length ∧ b.length / 100 + 1 < (b2jRaw b x).length then [] else b2jRaw b x

/-- Running best of `find_longest_match`. -/
structure FLMBest where
  besti : Nat
  bestj : Nat
  bestsize : Nat
deriving DecidableEq, Repr

/-- Inner loop of `find_longest_match` over the candidate `j`s (the `b2j`
list of `a[i]`, increasing): `continue` below `blo`, `break` from `bhi` on,
extend runs using the previous row `j2len`, and update the running best. -/
def flmInner (j2len : Nat → Nat) (blo bhi i : Nat) :
    List Nat → (Nat → Nat) → FLMBest → ((Nat → Nat) × FLMBest)
  | [], newj2len, best => (newj2len, best)
  | j :: js, newj2len, best =>
    if j < blo then flmInner j2len blo bhi i js newj2len best
    else if bhi ≤ j then (newj2len, best)
    else
      let k := (if j = 0 then 0 else j2len (j - 1)) + 1
      let newj2len' := fun j' => if j' = j then k else newj2len j'
      let best' : FLMBest := if best.bestsize < k then ⟨i + 1 - k, j + 1 - k, k⟩ else best
      flmInner j2len blo bhi i js newj2len' best'

/-- The row loop (`for i in range(alo, ahi)`) of `find_longest_match`:
each row starts from a fresh `newj2len`. -/
def flmRows {α : Type} [DecidableEq α] [Inhabited α] (a b : List α)
    (alo ahi blo bhi : Nat) : (Nat → Nat) × FLMBest :=
  (List.range' alo (ahi - alo)).foldl
    (fun st i => flmInner st.1 blo bhi i (b2j b (a.getD i default)) (fun _ => 0) st.2)
    ((fun _ => 0), ⟨alo, blo, 0⟩)

/-- Left extension loop of `find_longest_match`, with an explicit fuel
argument making the recursion structural; `extendLeft` passes `besti` as
fuel, which never runs out since every step requires `alo < besti` and
decrements `besti`.  The two junk extension loops of CPython are omitted:
with `isjunk = None` the junk set `bjunk` is empty, so `isbjunk` is
constantly false and those loops never run, while the `not isbjunk`
guards here are constantly true. -/
def extendLeftF {α : Type} [DecidableEq α] (a b : List α) (alo blo : Nat) :
    Nat → Nat → Nat → Nat → Nat × Nat × Nat
  | 0, besti, bestj, bestsize => (besti, bestj, bestsize)
  | fuel + 1, besti, bestj, bestsize =>
    if alo < besti ∧ blo < bestj ∧ a[besti - 1]? = b[bestj - 1]? then
      extendLeftF a b alo blo fuel (besti - 1) (bestj - 1) (bestsize + 1)
    else (besti, bestj, bestsize)

/-- Left extension loop of `find_longest_match`. -/
def extendLeft {α : Type} [DecidableEq α] (a b : List α) (alo blo : Nat)
    (besti bestj bestsize : Nat) : Nat × Nat × Nat :=
  extendLeftF a b alo blo besti besti bestj bestsize

/-- Right extension loop of `find_longest_match` (fueled as `extendLeftF`;
the fuel `bhi - (bestj + bestsize)` never runs out since every step
requires `bestj + bestsize < bhi` and increments `bestsize`). -/
def extendRightF {α : Type} [DecidableEq α] (a b : List α) (ahi bhi besti bestj : Nat) :
    Nat → Nat → Nat
  | 0, bestsize => bestsize
  | fuel + 1, bestsize =>
    if besti + bestsize < ahi ∧ bestj + bestsize < bhi ∧
        a[besti + bestsize]? = b[bestj + bestsize]? then
      extendRightF a b ahi bhi besti bestj fuel (bestsize + 1)
    else bestsize

/-- Right extension loop of `find_longest_match`. -/
def extendRight {α : Type} [DecidableEq α] (a b : List α) (ahi bhi besti bestj : Nat)
    (bestsize : Nat) : Nat :=
  extendRightF a b ahi bhi besti bestj (bhi - (bestj + bestsize)) bestsize

/-- A matching block `(a, b, size)` (difflib `Match` namedtuple). -/
structure MatchBlock where
  a : Nat
  b : Nat
  size : Nat
deriving DecidableEq, Repr

/-- `find_longest_match(alo, ahi, blo, bhi)`. -/
def findLongestMatch {α : Type} [DecidableEq α] [Inhabited α] (a b : List α)
    (alo ahi blo bhi : Nat) : MatchBlock :=
  let best := (flmRows a b alo ahi blo bhi).2
  let l := extendLeft a b alo blo best.besti best.bestj best.bestsize
  let sz := extendRight a b ahi bhi l.1 l.2.1 l.2.2
  ⟨l.1, l.2.1, sz⟩

/-- Recursive block collection of `get_matching_blocks` over the range
queue, with a structural fuel argument.  The guards carry the extra bounds
conjuncts `alo ≤ m.a`, `m.a + m.size ≤ ahi` (and the `b` analogues); these
always hold for the match found in a valid range
(`findLongestMatch_sound` below), so the function agrees with CPython's
queue loop there; they also make every recursive call strictly decrease
`(ahi - alo) + (bhi - blo)`, so the fuel `(ahi - alo) + (bhi - blo) + 1`
supplied by `blocksAux` never runs out. -/
def blocksAuxF {α : Type} [DecidableEq α] [Inhabited α] (a b : List α) :
    Nat → Nat → Nat → Nat → Nat → List MatchBlock
  | 0, _, _, _, _ => []
  | fuel + 1, alo, ahi, blo, bhi =>
    have m := findLongestMatch a b alo ahi blo bhi
    if 0 < m.size then
      (if alo < m.a ∧ blo < m.b ∧ m.a + m.size ≤ ahi ∧ m.b + m.size ≤ bhi then
        blocksAuxF a b fuel alo m.a blo m.b
      else []) ++
      m ::
      (if alo ≤ m.a ∧ blo ≤ m.b ∧ m.a + m.size < ahi ∧ m.b + m.size < bhi then
        blocksAuxF a b fuel (m.a + m.size) ahi (m.b + m.size) bhi
      else [])
    else []

/-- Block collection of `get_matching_blocks` over the range
`(alo, ahi, blo, bhi)`. -/
def blocksAux {α : Type} [DecidableEq α] [Inhabited α] (a b : List α)
    (alo ahi blo bhi : Nat) : List MatchBlock :=
  blocksAuxF a b ((ahi - alo) + (bhi - blo) + 1) alo ahi blo bhi

/-- Lexicographic order on `(a, b, size)` triples (Python tuple ordering). -/
def blockLe (x y : MatchBlock) : Prop :=
  x.a < y.a ∨ (x.a = y.a ∧ (x.b < y.b ∨ (x.b = y.b ∧ x.size ≤ y.size)))

instance (x y : MatchBlock) : Decidable (blockLe x y) := by
  unfold blockLe; infer_instance

/-- Insert into a sorted block list (for `matching_blocks.sort()`). -/
def insertBlock (x : MatchBlock) : List MatchBlock → List MatchBlock
  | [] => [x]
  | y :: ys => if blockLe x y then x :: y :: ys else y :: insertBlock x ys

/-- `matching_blocks.sort()` (insertion sort; stable, and on the already
ordered block lists produced here it is the identity). -/
def sortBlocks : List MatchBlock → List MatchBlock
  | [] => []
  | x :: xs => insertBlock x (sortBlocks xs)

/-- The second phase of `get_matching_blocks`: collapse adjacent blocks,
starting from the accumulator `(0, 0, 0)`, dropping zero-size accumulators. -/
def mergeAdj : MatchBlock → List MatchBlock → List MatchBlock
  | cur, [] => if 0 < cur.size then [cur] else []
  | cur, blk :: rest =>
    if cur.a + cur.size = blk.a ∧ cur.b + cur.size = blk.b then
      mergeAdj ⟨cur.a, cur.b, cur.size + blk.size⟩ rest
    else
      (if 0 < cur.size then [cur] else []) ++ mergeAdj blk rest

/-- `get_matching_blocks()`: recursive collection, sort, adjacency merge,
and the trailing sentinel `(len a, len b, 0)`. -/
def getMatchingBlocks {α : Type} [DecidableEq α] [Inhabited α] (a b : List α) :
    List MatchBlock :=
  mergeAdj ⟨0, 0, 0⟩ (sortBlocks (blocksAux a b 0 a.length 0 b.length)) ++
    [⟨a.length, b.length, 0⟩]

/-! ### force_align -/

/-- Step 4 of `force_align`: `truth_to_whisper_map[match.a + i] = match.b + i`
for every block, later blocks overwriting earlier ones (dict update order). -/
def truth_to_whisper_map (blks : List MatchBlock) : Nat → Option Nat :=
  blks.foldl
    (fun mp blk => fun i =>
      if blk.a ≤ i ∧ i < blk.a + blk.size then some (blk.b + (i - blk.a)) else mp i)
    (fun _ => none)

/-- Step 5 of `force_align`: direct matches copy the Whisper times verbatim,
everything else is flagged `None` for interpolation. -/
def buildSynced (truth_words : List String) (whisper : List WhisperWord)
    (mp : Nat → Option Nat) : List SyncedWord :=
  (List.range truth_words.length).map fun i =>
    match mp i with
    | some j =>
      { word := truth_words.getD i "", start := some (whisper.getD j default).start,
        end_ := some (whisper.getD j default).end_, matched := true }
    | none => { word := truth_words.getD i "", start := none, end_ := none, matched := false }

/-- Backward anchor scan of the interpolation engine (`while prev_idx >= 0`)
walking an explicit list of the entries `s[idx], s[idx-1], ..., s[0]`;
returns the final `prev_idx` and `prev_time` (initialized to `0.0`). -/
def prevScanAux : List SyncedWord → Int → Int × ℚ
  | [], idx => (idx, 0)
  | e :: rest, idx =>
    if e.start.isSome then (idx, e.end_.getD 0) else prevScanAux rest (idx - 1)

/-- Backward anchor scan from index `idx` (so the scanned entries are
`(s.take (idx + 1)).reverse`). -/
def prevScan (s : List SyncedWord) (idx : Int) : Int × ℚ :=
  prevScanAux ((s.take (idx + 1).toNat).reverse) idx

/-- Forward anchor scan (`while next_idx < len`) walking the remaining
entries; returns the final `next_idx` and `next_time` (`none` when no
anchor follows). -/
def nextScanAux : List SyncedWord → Nat → Nat × Option ℚ
  | [], idx => (idx, none)
  | e :: rest, idx =>
    if e.start.isSome then (idx, e.start) else nextScanAux rest (idx + 1)

/-- Forward anchor scan from index `idx`. -/
def nextScan (s : List SyncedWord) (idx : Nat) : Nat × Option ℚ :=
  nextScanAux (s.drop idx) idx

/-- The interpolated `(start, end)` pair computed for index `i` of `s`
(the body of step 6 of `force_align`). -/
def fillParams (s : List SyncedWord) (i : Nat) : ℚ × ℚ :=
  let pr := prevScan s ((i : Int) - 1)
  let nx := nextScan s (i + 1)
  let next_time : ℚ :=
    match nx.2 with
    | some t => t
    | none => pr.2 + (1/2) * ((nx.1 : ℚ) - ((pr.1 : ℚ)))
  let missing_count : ℚ := (nx.1 : ℚ) - (pr.1 : ℚ) - 1
  let step : ℚ := (next_time - pr.2) / (missing_count + 1)
  let start : ℚ := round3 (pr.2 + step * ((i : ℚ) - (pr.1 : ℚ)))
  (start, round3 (start + step * (8/10)))

/-- One iteration of the interpolation loop: fill index `i` if its start is
still `None`. -/
def fillAt (s : List SyncedWord) (i : Nat) : List SyncedWord :=
  if (s.getD i default).start.isSome then s
  else
    s.set i { s.getD i default with
      start := some (fillParams s i).1, end_ := some (fillParams s i).2 }

/-- Step 6 of `force_align`: `for i in range(len(synced_lyrics))`, filling
in place. -/
def fillAll (s : List SyncedWord) : List SyncedWord :=
  (List.range s.length).foldl fillAt s

/-- The matching blocks computed by `force_align` for its two inputs. -/
def alignBlocks (text : String) (whisper : List WhisperWord) : List MatchBlock :=
  getMatchingBlocks ((splitWords text).map clean_word) (whisper.map fun w => clean_word w.word)

/-- The `truth_index -> whisper_index` map of `force_align`. -/
def alignMap (text : String) (whisper : List WhisperWord) : Nat → Option Nat :=
  truth_to_whisper_map (alignBlocks text whisper)

/-- The synced list after step 5, before interpolation. -/
def initialSynced (text : String) (whisper : List WhisperWord) : List SyncedWord :=
  buildSynced (splitWords text) whisper (alignMap text whisper)

/-- `force_align(source_truth_text, whisper_result_json)`. -/
def force_align (source_truth_text : String) (whisper_result_json : List WhisperWord) :
    List SyncedWord :=
  fillAll (initialSynced source_truth_text whisper_result_json)

/-! ### Properties of `round3` -/

theorem rhe_bounds (x : ℚ) : x - 1/2 ≤ (rhe x : ℚ) ∧ (rhe x : ℚ) ≤ x + 1/2 := by
  unfold rhe
  split
  case isTrue h =>
    have hx : x = (⌊x⌋ : ℚ) + 1/2 := by linarith
    split <;> constructor <;> push_cast <;> linarith
  case isFalse h =>
    have hfl : (round x : ℚ) ≤ x + 1/2 := by
      rw [round_eq]
      exact_mod_cast Int.floor_le (x + 1/2)
    have hfu : x - 1/2 ≤ (round x : ℚ) := by
      rw [round_eq]
      have := Int.lt_floor_add_one (x + 1/2)
      push_cast at this ⊢
      linarith
    exact ⟨hfu, hfl⟩

theorem rhe_mono {x y : ℚ} (h : x ≤ y) : rhe x ≤ rhe y := by
  by_contra hlt
  push_neg at hlt
  have h1 : ((rhe y : ℚ) + 1) ≤ (rhe x : ℚ) := by exact_mod_cast hlt
  have hxb := rhe_bounds x
  have hyb := rhe_bounds y
  have hyx : y ≤ x := by linarith [hxb.2, hyb.1]
  have hxy : x = y := le_antisymm h hyx
  subst hxy
  exact absurd hlt (lt_irrefl _)

theorem rhe_intCast (n : ℤ) : rhe (n : ℚ) = n := by
  unfold rhe
  have h0 : (n : ℚ) - ⌊(n : ℚ)⌋ = 0 := by
    rw [Int.floor_intCast]; ring
  rw [h0]
  norm_num [round_intCast]

theorem rhe_floor_le (x : ℚ) : ⌊x⌋ ≤ rhe x := by
  unfold rhe
  split
  · split <;> omega
  · rw [round_eq]
    exact Int.floor_mono (by linarith)

theorem round3_mono {x y : ℚ} (h : x ≤ y) : round3 x ≤ round3 y := by
  unfold round3
  have h1 : rhe (x * 1000) ≤ rhe (y * 1000) := rhe_mono (by linarith)
  have h2 : (rhe (x * 1000) : ℚ) ≤ (rhe (y * 1000) : ℚ) := by exact_mod_cast h1
  linarith

theorem round3_grid (q : ℚ) : Grid (round3 q) := ⟨rhe (q * 1000), rfl⟩

theorem grid_round3_eq {q : ℚ} (h : Grid q) : round3 q = q := by
  obtain ⟨n, rfl⟩ := h
  unfold round3
  have h1 : (n : ℚ) / 1000 * 1000 = (n : ℚ) := by field_simp
  rw [h1, rhe_intCast]

theorem round3_le_add (q : ℚ) : round3 q ≤ q + 1/2000 := by
  unfold round3
  have := (rhe_bounds (q * 1000)).2
  linarith

theorem sub_le_round3 (q : ℚ) : q - 1/2000 ≤ round3 q := by
  unfold round3
  have := (rhe_bounds (q * 1000)).1
  linarith

theorem grid_le_round3 {p x : ℚ} (hp : Grid p) (h : p ≤ x) : p ≤ round3 x := by
  calc p = round3 p := (grid_round3_eq hp).symm
    _ ≤ round3 x := round3_mono h

theorem round3_le_grid {n x : ℚ} (hn : Grid n) (h : x ≤ n) : round3 x ≤ n := by
  calc round3 x ≤ round3 n := round3_mono h
    _ = n := grid_round3_eq hn

theorem round3_le_grid_of_lt {N x : ℚ} (hN : Grid N) (h : x < N + 1/2000) :
    round3 x ≤ N := by
  obtain ⟨m, rfl⟩ := hN
  unfold round3
  have h1 : (rhe (x * 1000) : ℚ) ≤ x * 1000 + 1/2 := (rhe_bounds _).2
  have h2 : x * 1000 + 1/2 < (m : ℚ) + 1 := by linarith
  have h3 : rhe (x * 1000) < m + 1 := by exact_mod_cast lt_of_le_of_lt h1 h2
  have h4 : rhe (x * 1000) ≤ m := by omega
  have h5 : (rhe (x * 1000) : ℚ) ≤ (m : ℚ) := by exact_mod_cast h4
  linarith

theorem grid_zero : Grid 0 := ⟨0, by norm_num⟩

theorem grid_add {p q : ℚ} (hp : Grid p) (hq : Grid q) : Grid (p + q) := by
  obtain ⟨m, rfl⟩ := hp
  obtain ⟨n, rfl⟩ := hq
  exact ⟨m + n, by push_cast; ring⟩

theorem grid_half : Grid (1/2) := ⟨500, by norm_num⟩

theorem grid_two_fifths : Grid (2/5) := ⟨400, by norm_num⟩

/-! ### Infrastructure for the interpolation loop -/

/-- Entry `i` of a synced list (`default` beyond the end). -/
def swAt (s : List SyncedWord) (i : Nat) : SyncedWord := s.getD i default

/-- The resolved start time of output record `k` (defaulting to `0`). -/
def outStart (t : String) (w : List WhisperWord) (k : Nat) : ℚ :=
  (swAt (force_align t w) k).start.getD 0

/-- The resolved end time of output record `k` (defaulting to `0`). -/
def outEnd (t : String) (w : List WhisperWord) (k : Nat) : ℚ :=
  (swAt (force_align t w) k).end_.getD 0

/-- The `prev_time` the interpolation loop sees at index `i`: the final end
time of the record immediately before `i`, or `0.0` at the very start. -/
def prevE (t : String) (w : List WhisperWord) (i : Nat) : ℚ :=
  if i = 0 then 0 else (swAt (force_align t w) (i - 1)).end_.getD 0

theorem swAt_eq_getElem (s : List SyncedWord) (i : Nat) (hi : i < s.length) :
    swAt s i = s[i] := by
  unfold swAt
  rw [List.getD_eq_getElem?_getD, List.getElem?_eq_getElem hi]
  rfl

/-- A partially processed interpolation pass: the first `i` loop iterations. -/
def fillUpTo (s : List SyncedWord) (i : Nat) : List SyncedWord :=
  (List.range i).foldl fillAt s

theorem fillAll_eq_fillUpTo (s : List SyncedWord) : fillAll s = fillUpTo s s.length := rfl

theorem fillUpTo_zero (s : List SyncedWord) : fillUpTo s 0 = s := rfl

theorem fillUpTo_succ (s : List SyncedWord) (i : Nat) :
    fillUpTo s (i + 1) = fillAt (fillUpTo s i) i := by
  unfold fillUpTo
  rw [List.range_succ i, List.foldl_append]
  rfl

theorem length_fillAt (s : List SyncedWord) (i : Nat) : (fillAt s i).length = s.length := by
  unfold fillAt
  split
  · rfl
  · exact List.length_set ..

theorem length_fillUpTo (s : List SyncedWord) (i : Nat) :
    (fillUpTo s i).length = s.length := by
  induction i with
  | zero => rfl
  | succ k ih => rw [fillUpTo_succ, length_fillAt, ih]

theorem fillAt_of_resolved (s : List SyncedWord) (i : Nat)
    (h : (swAt s i).start.isSome) : fillAt s i = s := by
  unfold swAt at h
  unfold fillAt
  rw [if_pos h]

theorem swAt_fillAt_ne (s : List SyncedWord) (i j : Nat) (h : j ≠ i) :
    swAt (fillAt s i) j = swAt s j := by
  unfold fillAt swAt
  split
  · rfl
  · simp [List.getD_eq_getElem?_getD, List.getElem?_set_ne (Ne.symm h)]

theorem swAt_fillAt_of_unresolved (s : List SyncedWord) (i : Nat)
    (h : ¬(swAt s i).start.isSome) (hi : i < s.length) :
    swAt (fillAt s i) i =
      { swAt s i with start := some (fillParams s i).1, end_ := some (fillParams s i).2 } := by
  unfold swAt at h ⊢
  unfold fillAt
  rw [if_neg h]
  simp [List.getD_eq_getElem?_getD, List.getElem?_set_eq_of_lt _ hi]

theorem resolved_fillAt (s : List SyncedWord) (i j : Nat)
    (h : (swAt s j).start.isSome) : (swAt (fillAt s i) j).start.isSome := by
  rcases eq_or_ne j i with rfl | hne
  · rw [fillAt_of_resolved s j h]; exact h
  · rw [swAt_fillAt_ne s i j hne]; exact h

theorem resolved_fillAt_self (s : List SyncedWord) (i : Nat) (hi : i < s.length) :
    (swAt (fillAt s i) i).start.isSome := by
  by_cases h : (swAt s i).start.isSome
  · rw [fillAt_of_resolved s i h]; exact h
  · rw [swAt_fillAt_of_unresolved s i h hi]; rfl

theorem swAt_fillUpTo_ge (s : List SyncedWord) (i j : Nat) (h : i ≤ j) :
    swAt (fillUpTo s i) j = swAt s j := by
  induction i with
  | zero => rfl
  | succ k ih =>
    rw [fillUpTo_succ, swAt_fillAt_ne _ _ _ (by omega), ih (by omega)]

theorem resolved_fillUpTo (s : List SyncedWord) (i j : Nat) (hj : j < i)
    (hjlen : j < s.length) : (swAt (fillUpTo s i) j).start.isSome := by
  induction i with
  | zero => omega
  | succ k ih =>
    rw [fillUpTo_succ]
    rcases eq_or_ne j k with rfl | hne
    · exact resolved_fillAt_self _ _ (by rw [length_fillUpTo]; exact hjlen)
    · exact resolved_fillAt _ _ _ (ih (by omega))

theorem swAt_fillUpTo_stable (s : List SyncedWord) (i i' j : Nat) (h : j < i)
    (h' : i ≤ i') : swAt (fillUpTo s i') j = swAt (fillUpTo s i) j := by
  induction i' with
  | zero => omega
  | succ k ih =>
    rcases eq_or_ne (k + 1) i with rfl | hne
    · rfl
    · rw [fillUpTo_succ, swAt_fillAt_ne _ _ _ (by omega), ih (by omega)]

theorem prevScan_neg (s : List SyncedWord) (idx : Int) (h : idx < 0) :
    prevScan s idx = (idx, 0) := by
  unfold prevScan
  rw [show (idx + 1).toNat = 0 from by omega]
  rfl

theorem prevScan_resolved (s : List SyncedWord) (idx : Int) (h0 : 0 ≤ idx)
    (hlen : idx.toNat < s.length) (h : (swAt s idx.toNat).start.isSome) :
    prevScan s idx = (idx, (swAt s idx.toNat).end_.getD 0) := by
  unfold prevScan
  rw [show (idx + 1).toNat = idx.toNat + 1 from by omega, List.take_succ,
    List.getElem?_eq_getElem hlen]
  rw [swAt_eq_getElem _ _ hlen] at h ⊢
  simp only [Option.toList_some, List.reverse_append, List.reverse_cons, List.reverse_nil,
    List.nil_append, List.singleton_append]
  unfold prevScanAux
  rw [if_pos h]

theorem nextScan_ge_length (s : List SyncedWord) (idx : Nat) (h : s.length ≤ idx) :
    nextScan s idx = (idx, none) := by
  unfold nextScan
  rw [List.drop_eq_nil_of_le h]
  rfl

theorem nextScan_resolved (s : List SyncedWord) (idx : Nat) (h : idx < s.length)
    (hr : (swAt s idx).start.isSome) : nextScan s idx = (idx, (swAt s idx).start) := by
  unfold nextScan
  rw [List.drop_eq_getElem_cons h]
  rw [swAt_eq_getElem _ _ h] at hr ⊢
  unfold nextScanAux
  rw [if_pos hr]

theorem nextScan_unresolved (s : List SyncedWord) (idx : Nat) (h : idx < s.length)
    (hr : ¬(swAt s idx).start.isSome) : nextScan s idx = nextScan s (idx + 1) := by
  unfold nextScan
  rw [List.drop_eq_getElem_cons h]
  rw [swAt_eq_getElem _ _ h] at hr
  conv_lhs => unfold nextScanAux
  rw [if_neg hr]

theorem nextScan_fst_ge (s : List SyncedWord) (idx : Nat) : idx ≤ (nextScan s idx).1 := by
  by_cases h : idx < s.length
  · by_cases hr : (swAt s idx).start.isSome
    · rw [nextScan_resolved s idx h hr]
    · rw [nextScan_unresolved s idx h hr]
      exact le_trans (by omega) (nextScan_fst_ge s (idx + 1))
  · rw [nextScan_ge_length s idx (by omega)]
termination_by s.length - idx
decreasing_by omega

theorem nextScan_eq_of_anchor (s : List SyncedWord) (idx q : Nat) (hq : idx ≤ q)
    (hqlen : q < s.length)
    (hmid : ∀ k, idx ≤ k → k < q → ¬(swAt s k).start.isSome)
    (hres : (swAt s q).start.isSome) :
    nextScan s idx = (q, (swAt s q).start) := by
  rcases eq_or_lt_of_le hq with rfl | hlt
  · exact nextScan_resolved s idx hqlen hres
  · rw [nextScan_unresolved s idx (by omega) (hmid idx le_rfl hlt)]
    exact nextScan_eq_of_anchor s (idx + 1) q hlt hqlen
      (fun k hk1 hk2 => hmid k (by omega) hk2) hres
termination_by q - idx
decreasing_by omega

theorem nextScan_eq_of_no_anchor (s : List SyncedWord) (idx : Nat)
    (hle : idx ≤ s.length)
    (hmid : ∀ k, idx ≤ k → k < s.length → ¬(swAt s k).start.isSome) :
    nextScan s idx = (s.length, none) := by
  rcases eq_or_lt_of_le hle with heq | hlt
  · rw [nextScan_ge_length s idx (le_of_eq heq.symm), heq]
  · rw [nextScan_unresolved s idx hlt (hmid idx le_rfl hlt)]
    exact nextScan_eq_of_no_anchor s (idx + 1) (by omega)
      (fun k hk1 hk2 => hmid k (by omega) hk2)
termination_by s.length - idx
decreasing_by omega

theorem nextScan_congr (s s' : List SyncedWord) (idx : Nat)
    (hlen : s.length = s'.length)
    (hsw : ∀ k, idx ≤ k → swAt s k = swAt s' k) :
    nextScan s idx = nextScan s' idx := by
  have he := hsw idx le_rfl
  by_cases h : idx < s.length
  · have h' : idx < s'.length := by omega
    by_cases hr : (swAt s idx).start.isSome
    · rw [nextScan_resolved s idx h hr, nextScan_resolved s' idx h' (by rw [← he]; exact hr),
        he]
    · rw [nextScan_unresolved s idx h hr,
        nextScan_unresolved s' idx h' (by rw [← he]; exact hr)]
      exact nextScan_congr s s' (idx + 1) hlen (fun k hk => hsw k (by omega))
  · rw [nextScan_ge_length s idx (by omega), nextScan_ge_length s' idx (by omega)]
termination_by s.length - idx
decreasing_by omega

theorem swAt_default (s : List SyncedWord) (i : Nat) (h : s.length ≤ i) :
    swAt s i = default := by
  unfold swAt
  simp [List.getD_eq_getElem?_getD, List.getElem?_eq_none h]

theorem swAt_fillAt_word (s : List SyncedWord) (i j : Nat) :
    (swAt (fillAt s i) j).word = (swAt s j).word ∧
    (swAt (fillAt s i) j).matched = (swAt s j).matched := by
  rcases eq_or_ne j i with rfl | hne
  · by_cases hr : (swAt s j).start.isSome
    · rw [fillAt_of_resolved s j hr]; exact ⟨rfl, rfl⟩
    · by_cases hj : j < s.length
      · rw [swAt_fillAt_of_unresolved s j hr hj]; exact ⟨rfl, rfl⟩
      · rw [swAt_default _ j (by rw [length_fillAt]; omega), swAt_default s j (by omega)]
        exact ⟨rfl, rfl⟩
  · rw [swAt_fillAt_ne s i j hne]; exact ⟨rfl, rfl⟩

theorem swAt_fillUpTo_word (s : List SyncedWord) (k j : Nat) :
    (swAt (fillUpTo s k) j).word = (swAt s j).word ∧
    (swAt (fillUpTo s k) j).matched = (swAt s j).matched := by
  induction k with
  | zero => exact ⟨rfl, rfl⟩
  | succ m ih =>
    rw [fillUpTo_succ]
    exact ⟨(swAt_fillAt_word _ m j).1.trans ih.1, (swAt_fillAt_word _ m j).2.trans ih.2⟩

theorem swAt_fillAll_word (s : List SyncedWord) (j : Nat) :
    (swAt (fillAll s) j).word = (swAt s j).word ∧
    (swAt (fillAll s) j).matched = (swAt s j).matched := by
  rw [fillAll_eq_fillUpTo]
  exact swAt_fillUpTo_word s s.length j

theorem swAt_fillUpTo_of_resolved (s : List SyncedWord) (k j : Nat)
    (h : (swAt s j).start.isSome) : swAt (fillUpTo s k) j = swAt s j := by
  induction k with
  | zero => rfl
  | succ m ih =>
    rw [fillUpTo_succ]
    rcases eq_or_ne j m with rfl | hne
    · rw [fillAt_of_resolved _ j (by rw [ih]; exact h)]; exact ih
    · rw [swAt_fillAt_ne _ m j hne]; exact ih

theorem swAt_fillAll_of_resolved (s : List SyncedWord) (j : Nat)
    (h : (swAt s j).start.isSome) : swAt (fillAll s) j = swAt s j := by
  rw [fillAll_eq_fillUpTo]
  exact swAt_fillUpTo_of_resolved s s.length j h

theorem swAt_fillAll_of_unresolved (s : List SyncedWord) (i : Nat) (hi : i < s.length)
    (h : ¬(swAt s i).start.isSome) :
    swAt (fillAll s) i = { swAt s i with
      start := some (fillParams (fillUpTo s i) i).1,
      end_ := some (fillParams (fillUpTo s i) i).2 } := by
  rw [fillAll_eq_fillUpTo, swAt_fillUpTo_stable s (i + 1) s.length i (by omega) (by omega),
    fillUpTo_succ]
  have hu : ¬(swAt (fillUpTo s i) i).start.isSome := by
    rw [swAt_fillUpTo_ge s i i le_rfl]; exact h
  rw [swAt_fillAt_of_unresolved _ _ hu (by rw [length_fillUpTo]; exact hi),
    swAt_fillUpTo_ge s i i le_rfl]

theorem fillAll_start_resolved (s : List SyncedWord) (i : Nat) (hi : i < s.length) :
    (swAt (fillAll s) i).start.isSome := by
  rw [fillAll_eq_fillUpTo]
  exact resolved_fillUpTo s s.length i hi hi

theorem fillAll_end_resolved (s : List SyncedWord) (i : Nat) (hi : i < s.length)
    (hsync : ∀ j, (swAt s j).start.isSome → (swAt s j).end_.isSome) :
    (swAt (fillAll s) i).end_.isSome := by
  by_cases h : (swAt s i).start.isSome
  · rw [swAt_fillAll_of_resolved s i h]; exact hsync i h
  · rw [swAt_fillAll_of_unresolved s i hi h]; rfl

/-- In the interpolation loop at an unfilled index `i` with all earlier
indices already resolved, the backward scan stops immediately: `prev_idx`
is `i - 1` (so `-1` for `i = 0`, with `prev_time = 0.0`), and
`local_offset = 1`.  With a following anchor `(q, N)` the computed step is
`(N - prev_time) / (q - i + 1)`. -/
theorem fillParams_spec_anchor (s' : List SyncedWord) (i q : Nat) (N P : ℚ)
    (hilen : i ≤ s'.length)
    (hprev : ∀ j, j < i → (swAt s' j).start.isSome)
    (hP : P = if i = 0 then 0 else (swAt s' (i - 1)).end_.getD 0)
    (hnx : nextScan s' (i + 1) = (q, some N)) :
    fillParams s' i =
      (round3 (P + (N - P) / ((q : ℚ) - (i : ℚ) + 1)),
       round3 (round3 (P + (N - P) / ((q : ℚ) - (i : ℚ) + 1)) +
         (N - P) / ((q : ℚ) - (i : ℚ) + 1) * (8/10))) := by
  have hpr : prevScan s' ((i : Int) - 1) = ((i : Int) - 1, P) := by
    rcases Nat.eq_zero_or_pos i with rfl | hpos
    · rw [prevScan_neg s' _ (by omega), hP, if_pos rfl]
    · have htn : ((i : Int) - 1).toNat = i - 1 := by omega
      rw [prevScan_resolved s' _ (by omega) (by omega)
          (by rw [htn]; exact hprev (i - 1) (by omega)),
        htn, hP, if_neg (by omega)]
  unfold fillParams
  rw [hpr, hnx]
  have hcast : (((i : Int) - 1 : Int) : ℚ) = (i : ℚ) - 1 := by push_cast; ring
  simp only [hcast]
  rw [show ((q : ℚ) - ((i : ℚ) - 1) - 1 + 1) = (q : ℚ) - (i : ℚ) + 1 from by ring,
    show ((i : ℚ) - ((i : ℚ) - 1)) = (1 : ℚ) from by ring, mul_one]

theorem fillParams_spec_tail (s' : List SyncedWord) (i q : Nat) (P : ℚ)
    (hilen : i ≤ s'.length)
    (hprev : ∀ j, j < i → (swAt s' j).start.isSome)
    (hP : P = if i = 0 then 0 else (swAt s' (i - 1)).end_.getD 0)
    (hnx : nextScan s' (i + 1) = (q, none)) :
    fillParams s' i = (round3 (P + 1/2), round3 (round3 (P + 1/2) + (1/2) * (8/10))) := by
  have hq : i + 1 ≤ q := by
    have := nextScan_fst_ge s' (i + 1)
    rw [hnx] at this
    exact this
  have hpr : prevScan s' ((i : Int) - 1) = ((i : Int) - 1, P) := by
    rcases Nat.eq_zero_or_pos i with rfl | hpos
    · rw [prevScan_neg s' _ (by omega), hP, if_pos rfl]
    · have htn : ((i : Int) - 1).toNat = i - 1 := by omega
      rw [prevScan_resolved s' _ (by omega) (by omega)
          (by rw [htn]; exact hprev (i - 1) (by omega)),
        htn, hP, if_neg (by omega)]
  unfold fillParams
  rw [hpr, hnx]
  have hcast : (((i : Int) - 1 : Int) : ℚ) = (i : ℚ) - 1 := by push_cast; ring
  have hdne : ((q : ℚ) - (i : ℚ) + 1) ≠ 0 := by
    have hle : ((i : ℚ) + 1) ≤ (q : ℚ) := by exact_mod_cast hq
    intro hc
    linarith
  simp only [hcast]
  rw [show ((q : ℚ) - ((i : ℚ) - 1) - 1 + 1) = (q : ℚ) - (i : ℚ) + 1 from by ring,
    show (P + 1/2 * ((q : ℚ) - ((i : ℚ) - 1)) - P) = (1/2) * ((q : ℚ) - (i : ℚ) + 1)
      from by ring,
    mul_div_assoc, div_self hdne, mul_one,
    show ((i : ℚ) - ((i : ℚ) - 1)) = (1 : ℚ) from by ring, mul_one]

theorem length_fillAll (s : List SyncedWord) : (fillAll s).length = s.length := by
  rw [fillAll_eq_fillUpTo, length_fillUpTo]

theorem force_align_def (t : String) (w : List WhisperWord) :
    force_align t w = fillAll (initialSynced t w) := rfl

theorem length_initialSynced (t : String) (w : List WhisperWord) :
    (initialSynced t w).length = (splitWords t).length := by
  unfold initialSynced buildSynced
  rw [List.length_map, List.length_range]

theorem length_force_align (t : String) (w : List WhisperWord) :
    (force_align t w).length = (splitWords t).length := by
  rw [force_align_def, length_fillAll, length_initialSynced]

theorem swAt_initialSynced (t : String) (w : List WhisperWord) (i : Nat)
    (hi : i < (splitWords t).length) :
    swAt (initialSynced t w) i =
      match alignMap t w i with
      | some j =>
        { word := (splitWords t).getD i "", start := some ((w.getD j default).start),
          end_ := some ((w.getD j default).end_), matched := true }
      | none =>
        { word := (splitWords t).getD i "", start := none, end_ := none,
          matched := false } := by
  unfold initialSynced buildSynced swAt
  rw [List.getD_eq_getElem?_getD]
  simp [List.getElem?_map, List.getElem?_range hi]

theorem swAt_initialSynced_of_map (t : String) (w : List WhisperWord) (i j : Nat)
    (hi : i < (splitWords t).length) (h : alignMap t w i = some j) :
    swAt (initialSynced t w) i =
      ⟨(splitWords t).getD i "", some ((w.getD j default).start),
        some ((w.getD j default).end_), true⟩ := by
  rw [swAt_initialSynced t w i hi, h]

theorem swAt_initialSynced_of_none (t : String) (w : List WhisperWord) (i : Nat)
    (hi : i < (splitWords t).length) (h : alignMap t w i = none) :
    swAt (initialSynced t w) i = ⟨(splitWords t).getD i "", none, none, false⟩ := by
  rw [swAt_initialSynced t w i hi, h]

theorem word_initialSynced (t : String) (w : List WhisperWord) (i : Nat)
    (hi : i < (splitWords t).length) :
    (swAt (initialSynced t w) i).word = (splitWords t).getD i "" := by
  rw [swAt_initialSynced t w i hi]
  cases alignMap t w i <;> rfl

theorem initialSynced_sync (t : String) (w : List WhisperWord) :
    ∀ j, (swAt (initialSynced t w) j).start.isSome →
      (swAt (initialSynced t w) j).end_.isSome := by
  intro j h
  by_cases hj : j < (splitWords t).length
  · rcases halign : alignMap t w j with _ | j'
    · rw [swAt_initialSynced_of_none t w j hj halign] at h
      simp at h
    · rw [swAt_initialSynced_of_map t w j j' hj halign]
      rfl
  · rw [swAt_default _ j (by rw [length_initialSynced]; omega)] at h
    exact absurd h (by decide)

theorem initialSynced_resolved_iff (t : String) (w : List WhisperWord) (i : Nat)
    (hi : i < (splitWords t).length) :
    (swAt (initialSynced t w) i).start.isSome ↔ (alignMap t w i).isSome := by
  rcases halign : alignMap t w i with _ | j
  · rw [swAt_initialSynced_of_none t w i hi halign]
    simp
  · rw [swAt_initialSynced_of_map t w i j hi halign]
    simp

theorem initialSynced_matched_iff (t : String) (w : List WhisperWord) (i : Nat)
    (hi : i < (splitWords t).length) :
    (swAt (initialSynced t w) i).matched = true ↔ (alignMap t w i).isSome := by
  rcases halign : alignMap t w i with _ | j
  · rw [swAt_initialSynced_of_none t w i hi halign]
    simp
  · rw [swAt_initialSynced_of_map t w i j hi halign]
    simp

theorem fillParams_round3 (s' : List SyncedWord) (i : Nat) :
    ∃ x y, fillParams s' i = (round3 x, round3 y) := ⟨_, _, rfl⟩

/-- Claim C2: the output of `force_align` lists exactly the
whitespace-delimited reference words, verbatim and in order (hence its
length is the reference word count). -/
theorem claimC2 (text : String) (whisper : List WhisperWord) :
    (force_align text whisper).map (fun r => r.word) = splitWords text := by
  apply List.ext_getElem
  · rw [List.length_map, length_force_align]
  · intro i h1 h2
    rw [List.getElem_map]
    have hlen : i < (force_align text whisper).length := by
      rw [List.length_map] at h1
      exact h1
    have hi : i < (splitWords text).length := h2
    rw [← swAt_eq_getElem _ i hlen, force_align_def,
      (swAt_fillAll_word (initialSynced text whisper) i).1,
      word_initialSynced text whisper i hi, List.getD_eq_getElem?_getD,
      List.getElem?_eq_getElem hi]
    rfl

/-- Claim C10: `force_align` is total and fully resolved: every output
record carries `some` start and end times, and for every unmatched index
the interpolation divisor `missing_count + 1` is at least `2` (in the loop
state at the moment index `i` is processed). -/
theorem claimC10 (text : String) (whisper : List WhisperWord) :
    (∀ r ∈ force_align text whisper, r.start.isSome ∧ r.end_.isSome) ∧
    (∀ i, i < (splitWords text).length →
      ¬(swAt (initialSynced text whisper) i).start.isSome →
      2 ≤ ((nextScan (fillUpTo (initialSynced text whisper) i) (i + 1)).1 : Int) -
        (prevScan (fillUpTo (initialSynced text whisper) i) ((i : Int) - 1)).1 - 1 + 1) := by
  constructor
  · intro r hr
    rw [List.mem_iff_getElem] at hr
    obtain ⟨i, hi, rfl⟩ := hr
    have hlen : i < (initialSynced text whisper).length := by
      rw [← length_fillAll]
      exact hi
    rw [← swAt_eq_getElem _ i hi, force_align_def]
    exact ⟨fillAll_start_resolved _ i hlen,
      fillAll_end_resolved _ i hlen (initialSynced_sync text whisper)⟩
  · intro i hi hu
    have hprev : ∀ j, j < i → (swAt (fillUpTo (initialSynced text whisper) i) j).start.isSome := by
      intro j hj
      exact resolved_fillUpTo _ i j hj (by rw [length_initialSynced]; omega)
    have hpr : (prevScan (fillUpTo (initialSynced text whisper) i) ((i : Int) - 1)).1 =
        (i : Int) - 1 := by
      rcases Nat.eq_zero_or_pos i with rfl | hpos
      · rw [prevScan_neg _ _ (by omega)]
      · have htn : ((i : Int) - 1).toNat = i - 1 := by omega
        rw [prevScan_resolved _ _ (by omega)
          (by rw [htn, length_fillUpTo, length_initialSynced]; omega)
          (by rw [htn]; exact hprev (i - 1) (by omega))]
    have hnx : i + 1 ≤ (nextScan (fillUpTo (initialSynced text whisper) i) (i + 1)).1 :=
      nextScan_fst_ge _ (i + 1)
    rw [hpr]
    omega

theorem claimC10_witness :
    ((swAt (force_align "a b" [⟨"a", 0, 1/5⟩]) 1).start.isSome ∧
      (swAt (force_align "a b" [⟨"a", 0, 1/5⟩]) 1).end_.isSome) ∧
     2 ≤ ((nextScan (fillUpTo (initialSynced "a b" [⟨"a", 0, 1/5⟩]) 1) (1 + 1)).1 : Int) -
        (prevScan (fillUpTo (initialSynced "a b" [⟨"a", 0, 1/5⟩]) 1) ((1 : Int) - 1)).1 - 1 + 1 := by
  obtain ⟨h1, h2⟩ := claimC10 "a b" [⟨"a", 0, 1/5⟩]
  refine ⟨?_, ?_⟩
  · have hlen : 1 < (force_align "a b" [⟨"a", 0, 1/5⟩]).length := by
      rw [length_force_align]; decide
    have hmem : swAt (force_align "a b" [⟨"a", 0, 1/5⟩]) 1 ∈
        force_align "a b" [⟨"a", 0, 1/5⟩] := by
      rw [swAt_eq_getElem _ 1 hlen]
      exact List.getElem_mem hlen
    exact h1 _ hmem
  · refine h2 1 (by decide) ?_
    rw [initialSynced_resolved_iff _ _ 1 (by decide)]
    decide

/-- Evaluate `round3` away from ties: if `q * 1000` lies strictly within
half a unit of the integer `z`, then `round3 q = z / 1000`. -/
theorem round3_eq (q : ℚ) (z : ℤ) (hlo : (z : ℚ) - 1/2 < q * 1000)
    (hhi : q * 1000 < (z : ℚ) + 1/2) : round3 q = (z : ℚ) / 1000 := by
  have hz : rhe (q * 1000) = z := by
    unfold rhe
    split
    case isTrue h =>
      exfalso
      have hx : q * 1000 = (⌊q * 1000⌋ : ℚ) + 1/2 := by linarith
      have h1 : (z : ℚ) - 1 < (⌊q * 1000⌋ : ℚ) := by linarith
      have h2 : ((⌊q * 1000⌋ : ℚ)) < (z : ℚ) := by linarith
      have h1' : z - 1 < ⌊q * 1000⌋ := by exact_mod_cast h1
      have h2' : ⌊q * 1000⌋ < z := by exact_mod_cast h2
      omega
    case isFalse h =>
      rw [round_eq]
      rw [Int.floor_eq_iff]
      constructor
      · linarith
      · linarith
  unfold round3
  rw [hz]

/-- Directly matched reference words keep the Whisper record's raw times
and the `matched = true` flag in the final output. -/
theorem out_matched (t : String) (w : List WhisperWord) (i j : Nat)
    (hi : i < (splitWords t).length) (hj : alignMap t w i = some j) :
    swAt (force_align t w) i =
      ⟨(splitWords t).getD i "", some ((w.getD j default).start),
        some ((w.getD j default).end_), true⟩ := by
  rw [force_align_def,
    swAt_fillAll_of_resolved _ i
      (by rw [swAt_initialSynced_of_map t w i j hi hj]; rfl),
    swAt_initialSynced_of_map t w i j hi hj]

/-- Output record of an unmatched reference index whose gap is closed by a
following matched anchor `q` (mapped to whisper index `jq`): the preceding
time is the already-final end at `i - 1` (or `0.0` at the start), the next
time is the anchor's raw start, and the record is interpolated with step
`(N - P) / (q - i + 1)`. -/
theorem out_unmatched_anchor (t : String) (w : List WhisperWord) (i q jq : Nat) (N P : ℚ)
    (hi : i < (splitWords t).length)
    (hu : alignMap t w i = none)
    (hP : P = if i = 0 then 0 else (swAt (force_align t w) (i - 1)).end_.getD 0)
    (hq : i < q) (hqlen : q < (splitWords t).length)
    (hmid : ∀ k, i < k → k < q → alignMap t w k = none)
    (hjq : alignMap t w q = some jq)
    (hN : N = (w.getD jq default).start) :
    swAt (force_align t w) i =
      ⟨(splitWords t).getD i "",
        some (round3 (P + (N - P) / ((q : ℚ) - (i : ℚ) + 1))),
        some (round3 (round3 (P + (N - P) / ((q : ℚ) - (i : ℚ) + 1)) +
          (N - P) / ((q : ℚ) - (i : ℚ) + 1) * (8/10))), false⟩ := by
  have hs := initialSynced t w
  have hILen : (initialSynced t w).length = (splitWords t).length := length_initialSynced t w
  have hiI : i < (initialSynced t w).length := by omega
  have hu' : ¬(swAt (initialSynced t w) i).start.isSome := by
    rw [swAt_initialSynced_of_none t w i hi hu]
    simp
  have hnxInit : nextScan (initialSynced t w) (i + 1) = (q, some N) := by
    rw [nextScan_eq_of_anchor (initialSynced t w) (i + 1) q (by omega) (by omega)
      (fun k hk1 hk2 => by
        rw [swAt_initialSynced_of_none t w k (by omega) (hmid k (by omega) hk2)]
        simp)
      (by rw [swAt_initialSynced_of_map t w q jq (by omega) hjq]; rfl),
      swAt_initialSynced_of_map t w q jq (by omega) hjq, hN]
  have hnx : nextScan (fillUpTo (initialSynced t w) i) (i + 1) = (q, some N) := by
    rw [nextScan_congr (fillUpTo (initialSynced t w) i) (initialSynced t w) (i + 1)
      (by rw [length_fillUpTo])
      (fun k hk => swAt_fillUpTo_ge _ i k (by omega))]
    exact hnxInit
  have hP' : P = if i = 0 then 0
      else (swAt (fillUpTo (initialSynced t w) i) (i - 1)).end_.getD 0 := by
    rcases Nat.eq_zero_or_pos i with rfl | hpos
    · rw [hP, if_pos rfl, if_pos rfl]
    · rw [hP, if_neg (by omega), if_neg (by omega), force_align_def, fillAll_eq_fillUpTo,
        swAt_fillUpTo_stable _ i _ (i - 1) (by omega) (by omega)]
  rw [force_align_def, swAt_fillAll_of_unresolved _ i hiI hu',
    fillParams_spec_anchor (fillUpTo (initialSynced t w) i) i q N P
      (by rw [length_fillUpTo]; omega)
      (fun j hj => resolved_fillUpTo _ i j hj (by omega)) hP' hnx,
    swAt_initialSynced_of_none t w i hi hu]

/-- Output record of a trailing unmatched reference index with no matched
anchor after it: the synthetic next time makes the step exactly `0.5`. -/
theorem out_unmatched_tail (t : String) (w : List WhisperWord) (i : Nat) (P : ℚ)
    (hi : i < (splitWords t).length)
    (hu : alignMap t w i = none)
    (hP : P = if i = 0 then 0 else (swAt (force_align t w) (i - 1)).end_.getD 0)
    (hmid : ∀ k, i < k → k < (splitWords t).length → alignMap t w k = none) :
    swAt (force_align t w) i =
      ⟨(splitWords t).getD i "",
        some (round3 (P + 1/2)),
        some (round3 (round3 (P + 1/2) + (1/2) * (8/10))), false⟩ := by
  have hILen : (initialSynced t w).length = (splitWords t).length := length_initialSynced t w
  have hiI : i < (initialSynced t w).length := by omega
  have hu' : ¬(swAt (initialSynced t w) i).start.isSome := by
    rw [swAt_initialSynced_of_none t w i hi hu]
    simp
  have hnxInit : nextScan (initialSynced t w) (i + 1) = ((initialSynced t w).length, none) := by
    rw [nextScan_eq_of_no_anchor (initialSynced t w) (i + 1) (by omega)
      (fun k hk1 hk2 => by
        rw [swAt_initialSynced_of_none t w k (by omega) (hmid k (by omega) (by omega))]
        simp)]
  have hnx : nextScan (fillUpTo (initialSynced t w) i) (i + 1) =
      ((initialSynced t w).length, none) := by
    rw [nextScan_congr (fillUpTo (initialSynced t w) i) (initialSynced t w) (i + 1)
      (by rw [length_fillUpTo])
      (fun k hk => swAt_fillUpTo_ge _ i k (by omega))]
    exact hnxInit
  have hP' : P = if i = 0 then 0
      else (swAt (fillUpTo (initialSynced t w) i) (i - 1)).end_.getD 0 := by
    rcases Nat.eq_zero_or_pos i with rfl | hpos
    · rw [hP, if_pos rfl, if_pos rfl]
    · rw [hP, if_neg (by omega), if_neg (by omega), force_align_def, fillAll_eq_fillUpTo,
        swAt_fillUpTo_stable _ i _ (i - 1) (by omega) (by omega)]
  rw [force_align_def, swAt_fillAll_of_unresolved _ i hiI hu',
    fillParams_spec_tail (fillUpTo (initialSynced t w) i) i (initialSynced t w).length P
      (by rw [length_fillUpTo]; omega)
      (fun j hj => resolved_fillUpTo _ i j hj (by omega)) hP' hnx,
    swAt_initialSynced_of_none t w i hi hu]

/-- Package `round3_eq` with a final numeral normalization. -/
theorem round3_lit (x : ℚ) (z : ℤ) (v : ℚ) (hlo : (z : ℚ) - 1/2 < x * 1000)
    (hhi : x * 1000 < (z : ℚ) + 1/2) (hv : (z : ℚ) / 1000 = v) : round3 x = v := by
  rw [round3_eq x z hlo hhi, hv]

theorem fullGap_out0 :
    swAt (force_align "a b c d" [⟨"a", 0, 1/10⟩, ⟨"d", 1, 11/10⟩]) 0 =
      ⟨"a", some 0, some (1/10), true⟩ := by
  rw [out_matched "a b c d" [⟨"a", 0, 1/10⟩, ⟨"d", 1, 11/10⟩] 0 0 (by decide) (by decide)]
  rfl

theorem fullGap_out3 :
    swAt (force_align "a b c d" [⟨"a", 0, 1/10⟩, ⟨"d", 1, 11/10⟩]) 3 =
      ⟨"d", some 1, some (11/10), true⟩ := by
  rw [out_matched "a b c d" [⟨"a", 0, 1/10⟩, ⟨"d", 1, 11/10⟩] 3 1 (by decide) (by decide)]
  rfl

theorem fullGap_out1 :
    swAt (force_align "a b c d" [⟨"a", 0, 1/10⟩, ⟨"d", 1, 11/10⟩]) 1 =
      ⟨"b", some (2/5), some (16/25), false⟩ := by
  rw [out_unmatched_anchor "a b c d" [⟨"a", 0, 1/10⟩, ⟨"d", 1, 11/10⟩] 1 3 1 1 (1/10)
    (by decide) (by decide)
    (by rw [if_neg (by omega), fullGap_out0]; rfl)
    (by omega) (by decide)
    (fun k hk1 hk2 => by
      have hk : k = 2 := by omega
      subst hk
      decide)
    (by decide) rfl]
  push_cast
  norm_num
  rw [round3_lit (2/5) 400 (2/5) (by norm_num) (by norm_num) (by norm_num)]
  norm_num
  rw [round3_lit (16/25) 640 (16/25) (by norm_num) (by norm_num) (by norm_num)]
  exact ⟨by decide, rfl⟩

theorem fullGap_out2 :
    swAt (force_align "a b c d" [⟨"a", 0, 1/10⟩, ⟨"d", 1, 11/10⟩]) 2 =
      ⟨"c", some (41/50), some (241/250), false⟩ := by
  rw [out_unmatched_anchor "a b c d" [⟨"a", 0, 1/10⟩, ⟨"d", 1, 11/10⟩] 2 3 1 1 (16/25)
    (by decide) (by decide)
    (by rw [if_neg (by omega), fullGap_out1]; rfl)
    (by omega) (by decide)
    (fun k hk1 hk2 => by omega)
    (by decide) rfl]
  push_cast
  norm_num
  rw [round3_lit (41/50) 820 (41/50) (by norm_num) (by norm_num) (by norm_num)]
  norm_num
  rw [round3_lit (241/250) 964 (241/250) (by norm_num) (by norm_num) (by norm_num)]
  exact ⟨by decide, rfl⟩

/-- Claim C1 (amended): in the full-gap scenario the anchors keep their raw
times, `b` is interpolated over the original gap with step `0.3` giving
`b.start = 0.4`, but the in-place fill then makes `b` the preceding anchor
for `c` (with `prev_time = b.end = 0.64`), so `c` is interpolated with step
`0.18` and `c.start = 0.82` (not `0.7`); both interpolated words carry
`matched = false`. -/
theorem claimC1_amended :
    (force_align "a b c d" [⟨"a", 0, 1/10⟩, ⟨"d", 1, 11/10⟩]).length = 4 ∧
    swAt (force_align "a b c d" [⟨"a", 0, 1/10⟩, ⟨"d", 1, 11/10⟩]) 0 =
      ⟨"a", some 0, some (1/10), true⟩ ∧
    swAt (force_align "a b c d" [⟨"a", 0, 1/10⟩, ⟨"d", 1, 11/10⟩]) 1 =
      ⟨"b", some (2/5), some (16/25), false⟩ ∧
    swAt (force_align "a b c d" [⟨"a", 0, 1/10⟩, ⟨"d", 1, 11/10⟩]) 2 =
      ⟨"c", some (41/50), some (241/250), false⟩ ∧
    swAt (force_align "a b c d" [⟨"a", 0, 1/10⟩, ⟨"d", 1, 11/10⟩]) 3 =
      ⟨"d", some 1, some (11/10), true⟩ :=
  ⟨by rw [length_force_align]; decide, fullGap_out0, fullGap_out1, fullGap_out2, fullGap_out3⟩

/-- Claim C1 is false as stated: in the full-gap scenario the code gives
`c.start = 0.82`, not `0.7`, because the freshly filled `b` becomes `c`'s
preceding anchor. -/
theorem claimC1_counterexample :
    ¬((swAt (force_align "a b c d" [⟨"a", 0, 1/10⟩, ⟨"d", 1, 11/10⟩]) 2).start =
      some (7/10)) := by
  rw [fullGap_out2]
  intro h
  have h' : (41 : ℚ)/50 = 7/10 := Option.some.inj h
  norm_num at h'

theorem negGap_out0 :
    swAt (force_align "a b c" [⟨"a", 10, 10⟩, ⟨"c", 0, 0⟩]) 0 =
      ⟨"a", some 10, some 10, true⟩ := by
  rw [out_matched "a b c" [⟨"a", 10, 10⟩, ⟨"c", 0, 0⟩] 0 0 (by decide) (by decide)]
  rfl

theorem negGap_out1 :
    swAt (force_align "a b c" [⟨"a", 10, 10⟩, ⟨"c", 0, 0⟩]) 1 =
      ⟨"b", some 5, some 1, false⟩ := by
  rw [out_unmatched_anchor "a b c" [⟨"a", 10, 10⟩, ⟨"c", 0, 0⟩] 1 2 1 0 10
    (by decide) (by decide)
    (by rw [if_neg (by omega), negGap_out0]; rfl)
    (by omega) (by decide)
    (fun k hk1 hk2 => by omega)
    (by decide) rfl]
  push_cast
  norm_num
  rw [round3_lit 5 5000 5 (by norm_num) (by norm_num) (by norm_num)]
  norm_num
  rw [round3_lit 1 1000 1 (by norm_num) (by norm_num) (by norm_num)]
  exact ⟨by decide, rfl⟩

/-- Claim C3 is false as stated: with per-word `start ≤ end` but
non-monotonic recognized timestamps, the interpolated word `b` gets
`start = 5` and `end = 1` (negative step, no clamping). -/
theorem claimC3_counterexample :
    ((10 : ℚ) ≤ 10 ∧ (0 : ℚ) ≤ 0) ∧
    ¬(∀ r ∈ force_align "a b c" [⟨"a", 10, 10⟩, ⟨"c", 0, 0⟩],
        ∀ x y, r.start = some x → r.end_ = some y → x ≤ y) := by
  refine ⟨⟨le_refl _, le_refl _⟩, ?_⟩
  intro hAll
  have hlen : 1 < (force_align "a b c" [⟨"a", 10, 10⟩, ⟨"c", 0, 0⟩]).length := by
    rw [length_force_align]
    decide
  have hmem : swAt (force_align "a b c" [⟨"a", 10, 10⟩, ⟨"c", 0, 0⟩]) 1 ∈
      force_align "a b c" [⟨"a", 10, 10⟩, ⟨"c", 0, 0⟩] := by
    rw [swAt_eq_getElem _ 1 hlen]
    exact List.getElem_mem ..
  have hle := hAll _ hmem 5 1 (by rw [negGap_out1]) (by rw [negGap_out1])
  norm_num at hle

/-- Claim C4 is false as stated: directly matched times are copied verbatim
from the recognized input without rounding; a matched word with start
`0.0001` keeps it, although `round(0.0001, 3) = 0`. -/
theorem claimC4_counterexample :
    ¬(∀ r ∈ force_align "a" [⟨"a", 1/10000, 1/5⟩],
        (∀ x, r.start = some x → round3 x = x) ∧
        (∀ y, r.end_ = some y → round3 y = y)) := by
  intro hAll
  have h0 : swAt (force_align "a" [⟨"a", 1/10000, 1/5⟩]) 0 =
      ⟨"a", some (1/10000), some (1/5), true⟩ := by
    rw [out_matched "a" [⟨"a", 1/10000, 1/5⟩] 0 0 (by decide) (by decide)]
    rfl
  have hlen : 0 < (force_align "a" [⟨"a", 1/10000, 1/5⟩]).length := by
    rw [length_force_align]
    decide
  have hmem : swAt (force_align "a" [⟨"a", 1/10000, 1/5⟩]) 0 ∈
      force_align "a" [⟨"a", 1/10000, 1/5⟩] := by
    rw [swAt_eq_getElem _ 0 hlen]
    exact List.getElem_mem ..
  have hrd := (hAll _ hmem).1 (1/10000) (by rw [h0])
  rw [round3_lit (1/10000) 0 0 (by norm_num) (by norm_num) (by norm_num)] at hrd
  norm_num at hrd

/-- Claim C4 (amended): every interpolated (`matched = false`) time in the
output of `force_align` is a fixed point of three-decimal rounding;
directly matched times are copied verbatim from the recognized input and
are only rounded if the input already was. -/
theorem claimC4_amended (text : String) (whisper : List WhisperWord) :
    ∀ r ∈ force_align text whisper, r.matched = false →
      (∀ x, r.start = some x → round3 x = x) ∧
      (∀ y, r.end_ = some y → round3 y = y) := by
  intro r hr hm
  rw [List.mem_iff_getElem] at hr
  obtain ⟨i, hi, rfl⟩ := hr
  have hisn : i < (splitWords text).length := by
    rw [← length_force_align text whisper]
    exact hi
  rw [← swAt_eq_getElem _ i hi] at hm ⊢
  have halign : alignMap text whisper i = none := by
    rcases halign : alignMap text whisper i with _ | j
    · rfl
    · exfalso
      have hmm := (swAt_fillAll_word (initialSynced text whisper) i).2
      have htrue : (swAt (initialSynced text whisper) i).matched = true := by
        rw [swAt_initialSynced_of_map text whisper i j hisn halign]
      rw [force_align_def, hmm, htrue] at hm
      exact absurd hm (by decide)
  have hu : ¬(swAt (initialSynced text whisper) i).start.isSome := by
    rw [swAt_initialSynced_of_none text whisper i hisn halign]
    simp
  rw [force_align_def,
    swAt_fillAll_of_unresolved _ i (by rw [length_initialSynced]; exact hisn) hu]
  obtain ⟨x, y, hxy⟩ := fillParams_round3 (fillUpTo (initialSynced text whisper) i) i
  rw [hxy]
  constructor
  · intro x' hx'
    have hval : round3 x = x' := Option.some.inj hx'
    rw [← hval]
    exact grid_round3_eq (round3_grid x)
  · intro y' hy'
    have hval : round3 y = y' := Option.some.inj hy'
    rw [← hval]
    exact grid_round3_eq (round3_grid y)

theorem claimC4_amended_witness :
    (swAt (force_align "a" [⟨"b", 0, 0⟩]) 0) ∈ force_align "a" [⟨"b", 0, 0⟩] ∧
    (swAt (force_align "a" [⟨"b", 0, 0⟩]) 0).matched = false ∧
    ((∀ x, (swAt (force_align "a" [⟨"b", 0, 0⟩]) 0).start = some x → round3 x = x) ∧
     (∀ y, (swAt (force_align "a" [⟨"b", 0, 0⟩]) 0).end_ = some y → round3 y = y)) := by
  have hlen : 0 < (force_align "a" [⟨"b", 0, 0⟩]).length := by
    rw [length_force_align]
    decide
  have hmem : swAt (force_align "a" [⟨"b", 0, 0⟩]) 0 ∈ force_align "a" [⟨"b", 0, 0⟩] := by
    rw [swAt_eq_getElem _ 0 hlen]
    exact List.getElem_mem ..
  have hmf : (swAt (force_align "a" [⟨"b", 0, 0⟩]) 0).matched = false := by
    rw [force_align_def, (swAt_fillAll_word _ 0).2,
      swAt_initialSynced_of_none "a" [⟨"b", 0, 0⟩] 0 (by decide) (by decide)]
  exact ⟨hmem, hmf, claimC4_amended "a" [⟨"b", 0, 0⟩] _ hmem hmf⟩

theorem subMs_out0 :
    swAt (force_align "a b c" [⟨"a", 1/2500, 21/50000⟩, ⟨"c", 3/6250, 1/2000⟩]) 0 =
      ⟨"a", some (1/2500), some (21/50000), true⟩ := by
  rw [out_matched "a b c" [⟨"a", 1/2500, 21/50000⟩, ⟨"c", 3/6250, 1/2000⟩] 0 0
    (by decide) (by decide)]
  rfl

theorem subMs_out1 :
    swAt (force_align "a b c" [⟨"a", 1/2500, 21/50000⟩, ⟨"c", 3/6250, 1/2000⟩]) 1 =
      ⟨"b", some 0, some 0, false⟩ := by
  rw [out_unmatched_anchor "a b c" [⟨"a", 1/2500, 21/50000⟩, ⟨"c", 3/6250, 1/2000⟩]
    1 2 1 (3/6250) (21/50000)
    (by decide) (by decide)
    (by rw [if_neg (by omega), subMs_out0]; rfl)
    (by omega) (by decide)
    (fun k hk1 hk2 => by omega)
    (by decide) rfl]
  push_cast
  norm_num
  rw [round3_lit (9/20000) 0 0 (by norm_num) (by norm_num) (by norm_num)]
  norm_num
  rw [round3_lit (3/125000) 0 0 (by norm_num) (by norm_num) (by norm_num)]
  exact ⟨by decide, rfl⟩

theorem subMs_out2 :
    swAt (force_align "a b c" [⟨"a", 1/2500, 21/50000⟩, ⟨"c", 3/6250, 1/2000⟩]) 2 =
      ⟨"c", some (3/6250), some (1/2000), true⟩ := by
  rw [out_matched "a b c" [⟨"a", 1/2500, 21/50000⟩, ⟨"c", 3/6250, 1/2000⟩] 2 1
    (by decide) (by decide)]
  rfl

/-- Claim C6 is false as stated: with matched anchors at non-decreasing
sub-millisecond times `end = 0.00042` and `start = 0.00048`, the single
interpolated word between them gets `start = round(0.00045, 3) = 0`, which
falls below the closed interval `[0.00042, 0.00048]`. -/
theorem claimC6_counterexample :
    (swAt (force_align "a b c" [⟨"a", 1/2500, 21/50000⟩, ⟨"c", 3/6250, 1/2000⟩]) 0).matched
      = true ∧
    (swAt (force_align "a b c" [⟨"a", 1/2500, 21/50000⟩, ⟨"c", 3/6250, 1/2000⟩]) 2).matched
      = true ∧
    (swAt (force_align "a b c" [⟨"a", 1/2500, 21/50000⟩, ⟨"c", 3/6250, 1/2000⟩]) 1).matched
      = false ∧
    (swAt (force_align "a b c" [⟨"a", 1/2500, 21/50000⟩, ⟨"c", 3/6250, 1/2000⟩]) 0).end_
      = some (21/50000) ∧
    (swAt (force_align "a b c" [⟨"a", 1/2500, 21/50000⟩, ⟨"c", 3/6250, 1/2000⟩]) 2).start
      = some (3/6250) ∧
    (21/50000 : ℚ) ≤ 3/6250 ∧
    (swAt (force_align "a b c" [⟨"a", 1/2500, 21/50000⟩, ⟨"c", 3/6250, 1/2000⟩]) 1).start
      = some 0 ∧
    ¬((21/50000 : ℚ) ≤ 0) := by
  refine ⟨by rw [subMs_out0], by rw [subMs_out2], by rw [subMs_out1], by rw [subMs_out0],
    by rw [subMs_out2], by norm_num, by rw [subMs_out1], by norm_num⟩

/-- Claim C7: a single trailing unmatched word after a matched word whose
end time is `T`, with no matched word after it, gets interpolated start
exactly `round(T + 0.5, 3)` (synthetic next time `T + 1`, two equal steps
of `0.5`). -/
theorem claimC7 (text : String) (whisper : List WhisperWord) (j : Nat) (T : ℚ)
    (h2 : 2 ≤ (splitWords text).length)
    (hlast : alignMap text whisper ((splitWords text).length - 1) = none)
    (hprevm : alignMap text whisper ((splitWords text).length - 2) = some j)
    (hT : T = (whisper.getD j default).end_) :
    (swAt (force_align text whisper) ((splitWords text).length - 1)).start =
      some (round3 (T + 1/2)) := by
  have hout := out_unmatched_tail text whisper ((splitWords text).length - 1) T
    (by omega) hlast
    (by
      rw [if_neg (by omega),
        show (splitWords text).length - 1 - 1 = (splitWords text).length - 2 from by omega,
        out_matched text whisper ((splitWords text).length - 2) j (by omega) hprevm, hT]
      rfl)
    (fun k hk1 hk2 => by omega)
  rw [hout]

theorem claimC7_witness :
    2 ≤ (splitWords "a b").length ∧
    (swAt (force_align "a b" [⟨"a", 0, 1/5⟩]) ((splitWords "a b").length - 1)).start =
      some (round3 ((1/5 : ℚ) + 1/2)) :=
  ⟨by decide, claimC7 "a b" [⟨"a", 0, 1/5⟩] 0 (1/5) (by decide) (by decide) (by decide) rfl⟩

theorem b2j_nil {α : Type} [DecidableEq α] (x : α) : b2j ([] : List α) x = [] := by
  unfold b2j b2jRaw
  simp

theorem flmRows_nil_right {α : Type} [DecidableEq α] [Inhabited α] (a : List α)
    (alo ahi blo bhi : Nat) :
    (flmRows a ([] : List α) alo ahi blo bhi).2 = ⟨alo, blo, 0⟩ := by
  unfold flmRows
  have h : ∀ (l : List Nat) (st : (Nat → Nat) × FLMBest),
      (l.foldl (fun st i =>
        flmInner st.1 blo bhi i (b2j ([] : List α) (a.getD i default)) (fun _ => 0) st.2)
        st).2 = st.2 := by
    intro l
    induction l with
    | nil => intro st; rfl
    | cons x xs ih =>
      intro st
      rw [List.foldl_cons, ih]
      rw [b2j_nil]
      rfl
  exact h _ _

theorem findLongestMatch_nil_right {α : Type} [DecidableEq α] [Inhabited α] (a : List α)
    (alo ahi blo : Nat) :
    findLongestMatch a ([] : List α) alo ahi blo 0 = ⟨alo, blo, 0⟩ := by
  unfold findLongestMatch
  simp only [flmRows_nil_right]
  have hL : extendLeft a ([] : List α) alo blo alo blo 0 = (alo, blo, 0) := by
    unfold extendLeft
    cases alo with
    | zero => rfl
    | succ m =>
      unfold extendLeftF
      rw [if_neg (fun hcon => absurd hcon.1 (lt_irrefl _))]
  have hR : extendRight a ([] : List α) ahi 0 alo blo 0 = 0 := by
    unfold extendRight
    rw [show 0 - (blo + 0) = 0 from by omega]
    rfl
  simp only [hL, hR]

theorem blocksAux_nil_right {α : Type} [DecidableEq α] [Inhabited α] (a : List α) :
    blocksAux a ([] : List α) 0 a.length 0 0 = [] := by
  unfold blocksAux
  rw [show a.length - 0 + (0 - 0) + 1 = a.length + 1 from by omega]
  unfold blocksAuxF
  rw [findLongestMatch_nil_right]
  rfl

theorem getMatchingBlocks_nil_right {α : Type} [DecidableEq α] [Inhabited α] (a : List α) :
    getMatchingBlocks a ([] : List α) = [⟨a.length, 0, 0⟩] := by
  unfold getMatchingBlocks
  simp only [List.length_nil]
  rw [blocksAux_nil_right]
  rfl

theorem alignMap_nil (t : String) (i : Nat) : alignMap t [] i = none := by
  unfold alignMap alignBlocks
  rw [show (List.map (fun w => clean_word w.word) ([] : List WhisperWord)) = [] from rfl,
    getMatchingBlocks_nil_right]
  unfold truth_to_whisper_map
  rw [List.foldl_cons, List.foldl_nil]
  dsimp only
  rw [if_neg (by omega)]

/-- Claim C8: `force_align` never fails on degenerate inputs: an empty
reference text yields an empty output; a non-empty reference with an empty
recognized list yields a full-length, wholly unmatched output on the
synthetic timeline anchored at `0.0`: each word starts `0.5` s after the
previous word's end (after time `0.0` for the first word) and lasts
`0.4` s (`0.8` of the `0.5` step). -/
theorem claimC8 (t : String) (w : List WhisperWord) :
    force_align "" w = [] ∧
    (force_align t []).length = (splitWords t).length ∧
    (∀ r ∈ force_align t [], r.matched = false) ∧
    (∀ i, i < (splitWords t).length →
      (swAt (force_align t []) i).start =
        some ((if i = 0 then 0 else (swAt (force_align t []) (i - 1)).end_.getD 0) + 1/2) ∧
      (swAt (force_align t []) i).end_ =
        some (((if i = 0 then 0 else (swAt (force_align t []) (i - 1)).end_.getD 0) + 1/2)
          + 2/5)) := by
  refine ⟨rfl, by rw [length_force_align], ?_, ?_⟩
  · intro r hr
    rw [List.mem_iff_getElem] at hr
    obtain ⟨i, hi, rfl⟩ := hr
    have hisn : i < (splitWords t).length := by
      rw [← length_force_align t ([] : List WhisperWord)]
      exact hi
    rw [← swAt_eq_getElem _ i hi, force_align_def, (swAt_fillAll_word _ i).2,
      swAt_initialSynced_of_none t [] i hisn (alignMap_nil t i)]
  · have key : ∀ i, i < (splitWords t).length →
        ((swAt (force_align t []) i).start =
          some ((if i = 0 then 0 else (swAt (force_align t []) (i - 1)).end_.getD 0)
            + 1/2) ∧
         (swAt (force_align t []) i).end_ =
          some (((if i = 0 then 0 else (swAt (force_align t []) (i - 1)).end_.getD 0)
            + 1/2) + 2/5) ∧
         Grid ((swAt (force_align t []) i).end_.getD 0)) := by
      intro i
      induction i with
      | zero =>
        intro hi
        have hout := out_unmatched_tail t [] 0 0 hi (alignMap_nil t 0)
          (by rw [if_pos rfl]) (fun k hk1 hk2 => alignMap_nil t k)
        have r1 : round3 ((0 : ℚ) + 1/2) = (0 : ℚ) + 1/2 :=
          grid_round3_eq ⟨500, by norm_num⟩
        have r2 : round3 ((0 : ℚ) + 1/2 + (1/2) * (8/10)) = (0 : ℚ) + 1/2 + 2/5 := by
          rw [show ((0 : ℚ) + 1/2 + (1/2) * (8/10)) = (0 : ℚ) + 1/2 + 2/5 from by norm_num]
          exact grid_round3_eq ⟨900, by norm_num⟩
        rw [hout, r1, r2]
        refine ⟨by rw [if_pos rfl], by rw [if_pos rfl], ?_⟩
        exact ⟨900, by norm_num⟩
      | succ m ih =>
        intro hi
        obtain ⟨ihs, ihe, ihg⟩ := ih (by omega)
        have hout := out_unmatched_tail t [] (m + 1)
          ((swAt (force_align t []) m).end_.getD 0) hi (alignMap_nil t (m + 1))
          (by rw [if_neg (by omega)]; rfl) (fun k hk1 hk2 => alignMap_nil t k)
        have r1 : round3 ((swAt (force_align t []) m).end_.getD 0 + 1/2) =
            (swAt (force_align t []) m).end_.getD 0 + 1/2 :=
          grid_round3_eq (grid_add ihg grid_half)
        have r2 : round3 ((swAt (force_align t []) m).end_.getD 0 + 1/2 + (1/2) * (8/10)) =
            (swAt (force_align t []) m).end_.getD 0 + 1/2 + 2/5 := by
          rw [show (swAt (force_align t []) m).end_.getD 0 + 1/2 + (1/2) * (8/10) =
            (swAt (force_align t []) m).end_.getD 0 + (1/2 + 2/5) from by ring]
          rw [grid_round3_eq (grid_add ihg ⟨900, by norm_num⟩)]
          ring
        rw [hout, r1, r2]
        refine ⟨by rw [if_neg (by omega)]; rfl, by rw [if_neg (by omega)]; rfl, ?_⟩
        refine grid_add (grid_add ihg grid_half) ⟨400, by norm_num⟩
    exact fun i hi => ⟨(key i hi).1, (key i hi).2.1⟩

theorem claimC8_witness :
    force_align "" [] = [] ∧ 1 < (splitWords "x y").length ∧
    (swAt (force_align "x y" []) 1).start =
      some ((if 1 = 0 then 0 else (swAt (force_align "x y" []) 0).end_.getD 0) + 1/2) :=
  ⟨(claimC8 "x y" []).1, by decide, ((claimC8 "x y" []).2.2.2 1 (by decide)).1⟩

/-! ### Soundness of the embedded SequenceMatcher -/

/-- The elements of `a` starting at `bi` agree with those of `b` starting
at `bj` for `k` positions. -/
def RunEq {α : Type} (a b : List α) (bi bj k : Nat) : Prop :=
  ∀ t, t < k → a[bi + t]? = b[bj + t]?

/-- Invariant of the running best of `find_longest_match` over the range
`(alo, ahi, blo, bhi)`. -/
def BestOK {α : Type} (a b : List α) (alo ahi blo bhi : Nat) (best : FLMBest) : Prop :=
  alo ≤ best.besti ∧ best.besti ≤ ahi ∧ blo ≤ best.bestj ∧ best.bestj ≤ bhi ∧
  (0 < best.bestsize →
    best.besti + best.bestsize ≤ ahi ∧ best.bestj + best.bestsize ≤ bhi) ∧
  RunEq a b best.besti best.bestj best.bestsize

/-- Invariant of a `j2len` row of `find_longest_match`: a recorded length
at `j` is a genuine matching run ending at `(i, j)`. -/
def RowOK {α : Type} (a b : List α) (alo blo bhi i : Nat) (j2len : Nat → Nat) : Prop :=
  ∀ j, 0 < j2len j → blo ≤ j ∧ j < bhi ∧ j2len j + alo ≤ i + 1 ∧ j2len j + blo ≤ j + 1 ∧
    (∀ t, t < j2len j → a[i - t]? = b[j - t]?)

theorem b2j_mem {α : Type} [DecidableEq α] (b : List α) (x : α) (j : Nat)
    (h : j ∈ b2j b x) : b[j]? = some x := by
  unfold b2j at h
  split at h
  · exact absurd h (List.not_mem_nil j)
  · unfold b2jRaw at h
    rw [List.mem_filter] at h
    exact of_decide_eq_true h.2

theorem bestUpdate_ok {α : Type} (a b : List α) (alo ahi blo bhi i j k : Nat)
    (best : FLMBest) (hbest : BestOK a b alo ahi blo bhi best)
    (hia : alo ≤ i) (hiahi : i < ahi) (hjblo : blo ≤ j) (hjbhi : j < bhi)
    (hrun : ∀ t, t < k → a[i - t]? = b[j - t]?)
    (hka : k + alo ≤ i + 1) (hkb : k + blo ≤ j + 1) :
    BestOK a b alo ahi blo bhi
      (if best.bestsize < k then ⟨i + 1 - k, j + 1 - k, k⟩ else best) := by
  split
  · unfold BestOK RunEq
    dsimp only
    refine ⟨by omega, by omega, by omega, by omega, fun _ => ⟨by omega, by omega⟩, ?_⟩
    intro t ht
    have h0 := hrun (k - 1 - t) (by omega)
    rw [show i - (k - 1 - t) = i + 1 - k + t from by omega,
      show j - (k - 1 - t) = j + 1 - k + t from by omega] at h0
    exact h0
  · exact hbest

theorem flmInner_ok {α : Type} [DecidableEq α] [Inhabited α] (a b : List α)
    (alo blo bhi ahi i : Nat) (hia : alo ≤ i) (hiahi : i < ahi) (hilen : i < a.length)
    (j2len : Nat → Nat)
    (hrow : (∀ j, j2len j = 0) ∨ (1 ≤ i ∧ RowOK a b alo blo bhi (i - 1) j2len)) :
    ∀ (js : List Nat) (acc : Nat → Nat) (best : FLMBest),
      (∀ j ∈ js, b[j]? = some (a.getD i default)) →
      RowOK a b alo blo bhi i acc →
      BestOK a b alo ahi blo bhi best →
      RowOK a b alo blo bhi i (flmInner j2len blo bhi i js acc best).1 ∧
      BestOK a b alo ahi blo bhi (flmInner j2len blo bhi i js acc best).2 := by
  intro js
  induction js with
  | nil => exact fun acc best _ hacc hbest => ⟨hacc, hbest⟩
  | cons j js ih =>
    intro acc best hjs hacc hbest
    unfold flmInner
    split
    · exact ih acc best (fun j' hj' => hjs j' (List.mem_cons_of_mem j hj')) hacc hbest
    · split
      · exact ⟨hacc, hbest⟩
      · rename_i hblo hbhi
        have hjblo : blo ≤ j := by omega
        have hjbhi : j < bhi := by omega
        have hbj : b[j]? = some (a.getD i default) := hjs j (List.mem_cons_self j js)
        have hai : a[i]? = some (a.getD i default) := by
          rw [List.getElem?_eq_getElem hilen]
          rw [show a.getD i default = a[i] from by
            rw [List.getD_eq_getElem?_getD, List.getElem?_eq_getElem hilen]; rfl]
        have haj : a[i]? = b[j]? := by rw [hai, hbj]
        have hold : (if j = 0 then 0 else j2len (j - 1)) = 0 ∨
            (1 ≤ i ∧ 1 ≤ j ∧ 0 < j2len (j - 1) ∧
              (if j = 0 then 0 else j2len (j - 1)) = j2len (j - 1)) := by
          rcases hrow with hz | ⟨hi1, _⟩
          · left
            split
            · rfl
            · exact hz (j - 1)
          · by_cases hj0 : j = 0
            · left; rw [if_pos hj0]
            · by_cases hzv : j2len (j - 1) = 0
              · left; rw [if_neg hj0]; exact hzv
              · right; exact ⟨hi1, by omega, by omega, if_neg hj0⟩
        have hrun : ∀ t, t < (if j = 0 then 0 else j2len (j - 1)) + 1 →
            a[i - t]? = b[j - t]? := by
          intro t ht
          cases t with
          | zero => exact haj
          | succ u =>
            rcases hold with hz | ⟨hi1, hj1, hpos, heq⟩
            · omega
            · rw [heq] at ht
              rcases hrow with hz' | ⟨_, hrowOK⟩
              · exact absurd (hz' (j - 1)) (by omega)
              · have hfacts := hrowOK (j - 1) hpos
                have hu := hfacts.2.2.2.2 u (by omega)
                rw [show i - (u + 1) = (i - 1) - u from by omega,
                  show j - (u + 1) = (j - 1) - u from by omega]
                exact hu
        have hklen : (if j = 0 then 0 else j2len (j - 1)) + 1 + alo ≤ i + 1 ∧
            (if j = 0 then 0 else j2len (j - 1)) + 1 + blo ≤ j + 1 := by
          rcases hold with hz | ⟨hi1, hj1, hpos, heq⟩
          · rw [hz]; omega
          · rcases hrow with hz' | ⟨_, hrowOK⟩
            · exact absurd (hz' (j - 1)) (by omega)
            · have hfacts := hrowOK (j - 1) hpos
              rw [heq]
              omega
        have hacc' : RowOK a b alo blo bhi i
            (fun j' => if j' = j then (if j = 0 then 0 else j2len (j - 1)) + 1
              else acc j') := by
          intro j' hj'
          dsimp only at hj' ⊢
          by_cases hjj : j' = j
          · subst hjj
            rw [if_pos rfl] at hj' ⊢
            exact ⟨hjblo, hjbhi, hklen.1, hklen.2, hrun⟩
          · rw [if_neg hjj] at hj' ⊢
            exact hacc j' hj'
        have hbest' := bestUpdate_ok a b alo ahi blo bhi i j
          ((if j = 0 then 0 else j2len (j - 1)) + 1) best hbest hia hiahi hjblo hjbhi
          hrun hklen.1 hklen.2
        exact ih _ _ (fun j' hj' => hjs j' (List.mem_cons_of_mem j hj')) hacc' hbest'

theorem flmFold_ok {α : Type} [DecidableEq α] [Inhabited α] (a b : List α)
    (alo ahi blo bhi : Nat) (halen : ahi ≤ a.length) :
    ∀ (n s : Nat) (st : (Nat → Nat) × FLMBest),
      alo ≤ s → s + n ≤ ahi →
      ((∀ j, st.1 j = 0) ∨ (1 ≤ s ∧ RowOK a b alo blo bhi (s - 1) st.1)) →
      BestOK a b alo ahi blo bhi st.2 →
      BestOK a b alo ahi blo bhi
        (((List.range' s n).foldl (fun st i =>
          flmInner st.1 blo bhi i (b2j b (a.getD i default)) (fun _ => 0) st.2) st).2) := by
  intro n
  induction n with
  | zero => exact fun s st _ _ _ hbest => hbest
  | succ m ih =>
    intro s st hs hsn hrow hbest
    rw [List.range'_succ, List.foldl_cons]
    have hstep := flmInner_ok a b alo blo bhi ahi s hs (by omega) (by omega) st.1 hrow
      (b2j b (a.getD s default)) (fun _ => 0) st.2
      (fun j hj => b2j_mem b _ j hj)
      (fun j hj => absurd hj (Nat.lt_irrefl 0))
      hbest
    exact ih (s + 1) _ (by omega) (by omega)
      (Or.inr ⟨by omega, by simpa using hstep.1⟩) hstep.2

theorem flmRows_ok {α : Type} [DecidableEq α] [Inhabited α] (a b : List α)
    (alo ahi blo bhi : Nat) (halo : alo ≤ ahi) (hblo : blo ≤ bhi)
    (halen : ahi ≤ a.length) :
    BestOK a b alo ahi blo bhi (flmRows a b alo ahi blo bhi).2 := by
  unfold flmRows
  exact flmFold_ok a b alo ahi blo bhi halen (ahi - alo) alo
    ((fun _ => 0), ⟨alo, blo, 0⟩) (le_refl _) (by omega) (Or.inl fun j => rfl)
    ⟨le_refl _, halo, le_refl _, hblo, fun h => absurd h (Nat.lt_irrefl 0),
      fun t ht => absurd ht (Nat.not_lt_zero t)⟩

theorem extendLeftF_ok {α : Type} [DecidableEq α] (a b : List α)
    (alo ahi blo bhi : Nat) :
    ∀ (fuel besti bestj bestsize : Nat),
      BestOK a b alo ahi blo bhi ⟨besti, bestj, bestsize⟩ →
      BestOK a b alo ahi blo bhi
        ⟨(extendLeftF a b alo blo fuel besti bestj bestsize).1,
         (extendLeftF a b alo blo fuel besti bestj bestsize).2.1,
         (extendLeftF a b alo blo fuel besti bestj bestsize).2.2⟩ := by
  intro fuel
  induction fuel with
  | zero => exact fun _ _ _ h => h
  | succ f ih =>
    intro besti bestj bestsize hb
    unfold extendLeftF
    split
    · rename_i hcond
      apply ih
      unfold BestOK RunEq at hb ⊢
      dsimp only at hb ⊢
      obtain ⟨h1, h2, h3, h4, h5, h6⟩ := hb
      obtain ⟨hc1, hc2, hc3⟩ := hcond
      refine ⟨by omega, by omega, by omega, by omega, fun _ => ⟨?_, ?_⟩, ?_⟩
      · rcases Nat.eq_zero_or_pos bestsize with hz | hp
        · omega
        · have := (h5 hp).1; omega
      · rcases Nat.eq_zero_or_pos bestsize with hz | hp
        · omega
        · have := (h5 hp).2; omega
      · intro t ht
        cases t with
        | zero =>
          rw [show besti - 1 + 0 = besti - 1 from by omega,
            show bestj - 1 + 0 = bestj - 1 from by omega]
          exact hc3
        | succ u =>
          have h0 := h6 u (by omega)
          rw [show besti - 1 + (u + 1) = besti + u from by omega,
            show bestj - 1 + (u + 1) = bestj + u from by omega]
          exact h0
    · exact hb

theorem extendRightF_ok {α : Type} [DecidableEq α] (a b : List α)
    (alo ahi blo bhi besti bestj : Nat) :
    ∀ (fuel bestsize : Nat),
      BestOK a b alo ahi blo bhi ⟨besti, bestj, bestsize⟩ →
      BestOK a b alo ahi blo bhi
        ⟨besti, bestj, extendRightF a b ahi bhi besti bestj fuel bestsize⟩ := by
  intro fuel
  induction fuel with
  | zero => exact fun _ h => h
  | succ f ih =>
    intro bestsize hb
    unfold extendRightF
    split
    · rename_i hcond
      apply ih
      unfold BestOK RunEq at hb ⊢
      dsimp only at hb ⊢
      obtain ⟨h1, h2, h3, h4, h5, h6⟩ := hb
      obtain ⟨hc1, hc2, hc3⟩ := hcond
      refine ⟨h1, h2, h3, h4, fun _ => ⟨by omega, by omega⟩, ?_⟩
      intro t ht
      rcases Nat.lt_or_ge t bestsize with hlt | hge
      · exact h6 t hlt
      · have htx : t = bestsize := by omega
        subst htx
        exact hc3
    · exact hb

/-- The block returned by `findLongestMatch` lies within the requested
range and is a genuine equal run. -/
def MBOK {α : Type} (a b : List α) (alo ahi blo bhi : Nat) (m : MatchBlock) : Prop :=
  BestOK a b alo ahi blo bhi ⟨m.a, m.b, m.size⟩

theorem findLongestMatch_sound {α : Type} [DecidableEq α] [Inhabited α] (a b : List α)
    (alo ahi blo bhi : Nat) (halo : alo ≤ ahi) (hblo : blo ≤ bhi)
    (halen : ahi ≤ a.length) :
    MBOK a b alo ahi blo bhi (findLongestMatch a b alo ahi blo bhi) := by
  unfold findLongestMatch MBOK
  dsimp only
  unfold extendLeft extendRight
  exact extendRightF_ok a b alo ahi blo bhi _ _ _ _
    (extendLeftF_ok a b alo ahi blo bhi _ _ _ _
      (flmRows_ok a b alo ahi blo bhi halo hblo halen))

/-- Block `x` ends (in both sequences) before block `y` starts. -/
def EndLe (x y : MatchBlock) : Prop :=
  x.a + x.size ≤ y.a ∧ x.b + x.size ≤ y.b

/-- A nonempty genuine matching block within the range `(alo, ahi, blo, bhi)`. -/
def BlockIn {α : Type} (a b : List α) (alo ahi blo bhi : Nat) (blk : MatchBlock) : Prop :=
  alo ≤ blk.a ∧ blk.a + blk.size ≤ ahi ∧ blo ≤ blk.b ∧ blk.b + blk.size ≤ bhi ∧
  0 < blk.size ∧ RunEq a b blk.a blk.b blk.size

theorem blocks_assemble {α : Type} (a b : List α) (alo ahi blo bhi : Nat)
    (L R : List MatchBlock) (M : MatchBlock)
    (hLin : ∀ blk ∈ L, BlockIn a b alo ahi blo bhi blk ∧
      blk.a + blk.size ≤ M.a ∧ blk.b + blk.size ≤ M.b)
    (hLpw : List.Pairwise EndLe L)
    (hRin : ∀ blk ∈ R, BlockIn a b alo ahi blo bhi blk ∧
      M.a + M.size ≤ blk.a ∧ M.b + M.size ≤ blk.b)
    (hRpw : List.Pairwise EndLe R)
    (hMin : BlockIn a b alo ahi blo bhi M) :
    (∀ blk ∈ L ++ M :: R, BlockIn a b alo ahi blo bhi blk) ∧
    List.Pairwise EndLe (L ++ M :: R) := by
  constructor
  · intro blk hblk
    rw [List.mem_append, List.mem_cons] at hblk
    rcases hblk with hL | hM | hR
    · exact (hLin blk hL).1
    · rw [hM]; exact hMin
    · exact (hRin blk hR).1
  · rw [List.pairwise_append]
    refine ⟨hLpw, ?_, ?_⟩
    · rw [List.pairwise_cons]
      exact ⟨fun r hr => ⟨(hRin r hr).2.1, (hRin r hr).2.2⟩, hRpw⟩
    · intro x hx y hy
      rw [List.mem_cons] at hy
      rcases hy with rfl | hy
      · exact ⟨(hLin x hx).2.1, (hLin x hx).2.2⟩
      · constructor
        · calc x.a + x.size ≤ M.a := (hLin x hx).2.1
            _ ≤ y.a := le_trans (Nat.le_add_right _ _) (hRin y hy).2.1
        · calc x.b + x.size ≤ M.b := (hLin x hx).2.2
            _ ≤ y.b := le_trans (Nat.le_add_right _ _) (hRin y hy).2.2

theorem blocksAuxF_sound {α : Type} [DecidableEq α] [Inhabited α] (a b : List α) :
    ∀ (fuel alo ahi blo bhi : Nat), alo ≤ ahi → blo ≤ bhi → ahi ≤ a.length →
      (∀ blk ∈ blocksAuxF a b fuel alo ahi blo bhi, BlockIn a b alo ahi blo bhi blk) ∧
      List.Pairwise EndLe (blocksAuxF a b fuel alo ahi blo bhi) := by
  intro fuel
  induction fuel with
  | zero =>
    intro alo ahi blo bhi _ _ _
    exact ⟨fun blk h => absurd h (List.not_mem_nil blk), List.Pairwise.nil⟩
  | succ f ih =>
    intro alo ahi blo bhi halo hblo halen
    have hm := findLongestMatch_sound a b alo ahi blo bhi halo hblo halen
    unfold MBOK BestOK RunEq at hm
    dsimp only at hm
    obtain ⟨hm1, hm2, hm3, hm4, hm5, hm6⟩ := hm
    unfold blocksAuxF
    dsimp only
    split
    · rename_i hms
      have hMin : BlockIn a b alo ahi blo bhi (findLongestMatch a b alo ahi blo bhi) :=
        ⟨hm1, (hm5 hms).1, hm3, (hm5 hms).2, hms, hm6⟩
      apply blocks_assemble
      · intro blk hblk
        split at hblk
        · rename_i hguard
          have hsub := ih alo (findLongestMatch a b alo ahi blo bhi).a blo
            (findLongestMatch a b alo ahi blo bhi).b (by omega) (by omega) (by omega)
          have hin := hsub.1 blk hblk
          obtain ⟨g1, g2, g3, g4, g5, g6⟩ := hin
          exact ⟨⟨g1, by omega, g3, by omega, g5, g6⟩, g2, g4⟩
        · exact absurd hblk (List.not_mem_nil blk)
      · split
        · rename_i hguard
          exact (ih alo (findLongestMatch a b alo ahi blo bhi).a blo
            (findLongestMatch a b alo ahi blo bhi).b (by omega) (by omega) (by omega)).2
        · exact List.Pairwise.nil
      · intro blk hblk
        split at hblk
        · rename_i hguard
          have hsub := ih ((findLongestMatch a b alo ahi blo bhi).a +
              (findLongestMatch a b alo ahi blo bhi).size) ahi
            ((findLongestMatch a b alo ahi blo bhi).b +
              (findLongestMatch a b alo ahi blo bhi).size) bhi
            (by omega) (by omega) halen
          have hin := hsub.1 blk hblk
          obtain ⟨g1, g2, g3, g4, g5, g6⟩ := hin
          exact ⟨⟨by omega, g2, by omega, g4, g5, g6⟩, g1, g3⟩
        · exact absurd hblk (List.not_mem_nil blk)
      · split
        · rename_i hguard
          exact (ih ((findLongestMatch a b alo ahi blo bhi).a +
              (findLongestMatch a b alo ahi blo bhi).size) ahi
            ((findLongestMatch a b alo ahi blo bhi).b +
              (findLongestMatch a b alo ahi blo bhi).size) bhi
            (by omega) (by omega) halen).2
        · exact List.Pairwise.nil
      · exact hMin
    · exact ⟨fun blk h => absurd h (List.not_mem_nil blk), List.Pairwise.nil⟩

theorem insertBlock_of_le (x : MatchBlock) (l : List MatchBlock)
    (h : ∀ y ∈ l, blockLe x y) : insertBlock x l = x :: l := by
  cases l with
  | nil => rfl
  | cons y ys =>
    unfold insertBlock
    rw [if_pos (h y (List.mem_cons_self y ys))]

theorem sortBlocks_eq_self (l : List MatchBlock) (h : List.Pairwise blockLe l) :
    sortBlocks l = l := by
  induction l with
  | nil => rfl
  | cons x xs ih =>
    rw [List.pairwise_cons] at h
    unfold sortBlocks
    rw [ih h.2, insertBlock_of_le x xs h.1]

theorem pairwise_blockLe_of_endLe (l : List MatchBlock)
    (hpos : ∀ blk ∈ l, 0 < blk.size) (h : List.Pairwise EndLe l) :
    List.Pairwise blockLe l := by
  refine List.Pairwise.imp_of_mem ?_ h
  intro x y hx hy hxy
  have hps := hpos x hx
  exact Or.inl (by have := hxy.1; omega)

theorem blockIn_merge {α : Type} (a b : List α) (la lb : Nat) (x y : MatchBlock)
    (hx : BlockIn a b 0 la 0 lb x) (hy : BlockIn a b 0 la 0 lb y)
    (hadj1 : x.a + x.size = y.a) (hadj2 : x.b + x.size = y.b) :
    BlockIn a b 0 la 0 lb ⟨x.a, x.b, x.size + y.size⟩ := by
  obtain ⟨x1, x2, x3, x4, x5, x6⟩ := hx
  obtain ⟨y1, y2, y3, y4, y5, y6⟩ := hy
  unfold BlockIn RunEq
  dsimp only
  refine ⟨by omega, by omega, by omega, by omega, by omega, ?_⟩
  intro t ht
  rcases Nat.lt_or_ge t x.size with hlt | hge
  · exact x6 t hlt
  · have h0 := y6 (t - x.size) (by omega)
    rw [show y.a + (t - x.size) = x.a + t from by omega,
      show y.b + (t - x.size) = x.b + t from by omega] at h0
    exact h0

theorem mergeAdj_ge : ∀ (l : List MatchBlock) (cur : MatchBlock),
    List.Pairwise EndLe (cur :: l) →
    ∀ out ∈ mergeAdj cur l, cur.a ≤ out.a ∧ cur.b ≤ out.b := by
  intro l
  induction l with
  | nil =>
    intro cur _ out hout
    unfold mergeAdj at hout
    split at hout
    · rw [List.mem_singleton] at hout
      subst hout
      exact ⟨le_refl _, le_refl _⟩
    · exact absurd hout (List.not_mem_nil out)
  | cons blk rest ih =>
    intro cur hpw out hout
    have hEc := (List.pairwise_cons.mp hpw).1 blk (List.mem_cons_self ..)
    have hpwtail : List.Pairwise EndLe (blk :: rest) := (List.pairwise_cons.mp hpw).2
    unfold mergeAdj at hout
    split at hout
    · rename_i hadj
      have hpw' : List.Pairwise EndLe ((⟨cur.a, cur.b, cur.size + blk.size⟩ : MatchBlock)
          :: rest) := by
        rw [List.pairwise_cons]
        refine ⟨?_, (List.pairwise_cons.mp hpwtail).2⟩
        intro r hr
        have hbr := (List.pairwise_cons.mp hpwtail).1 r hr
        exact ⟨by have := hbr.1; dsimp only; omega, by have := hbr.2; dsimp only; omega⟩
      have h0 := ih _ hpw' out hout
      dsimp only at h0
      exact h0
    · rw [List.mem_append] at hout
      rcases hout with hc | hr
      · split at hc
        · rw [List.mem_singleton] at hc
          subst hc
          exact ⟨le_refl _, le_refl _⟩
        · exact absurd hc (List.not_mem_nil out)
      · have h0 := ih blk hpwtail out hr
        exact ⟨le_trans (le_trans (Nat.le_add_right ..) hEc.1) h0.1,
          le_trans (le_trans (Nat.le_add_right ..) hEc.2) h0.2⟩

theorem mergeAdj_sound {α : Type} (a b : List α) (la lb : Nat) :
    ∀ (l : List MatchBlock) (cur : MatchBlock),
      (cur.size = 0 ∨ BlockIn a b 0 la 0 lb cur) →
      (∀ blk ∈ l, BlockIn a b 0 la 0 lb blk) →
      List.Pairwise EndLe (cur :: l) →
      (∀ out ∈ mergeAdj cur l, BlockIn a b 0 la 0 lb out) ∧
      List.Pairwise EndLe (mergeAdj cur l) := by
  intro l
  induction l with
  | nil =>
    intro cur hcur _ _
    constructor
    · intro out hout
      unfold mergeAdj at hout
      split at hout
      · rename_i hpos
        rw [List.mem_singleton] at hout
        subst hout
        rcases hcur with hz | hin
        · omega
        · exact hin
      · exact absurd hout (List.not_mem_nil out)
    · unfold mergeAdj
      split
      · simp
      · exact List.Pairwise.nil
  | cons blk rest ih =>
    intro cur hcur hin hpw
    have hblkIn := hin blk (List.mem_cons_self ..)
    have hEc := (List.pairwise_cons.mp hpw).1 blk (List.mem_cons_self ..)
    have hpwtail : List.Pairwise EndLe (blk :: rest) := (List.pairwise_cons.mp hpw).2
    have hinrest : ∀ x ∈ rest, BlockIn a b 0 la 0 lb x :=
      fun x hx => hin x (List.mem_cons_of_mem _ hx)
    unfold mergeAdj
    split
    · rename_i hadj
      have hcur' : (⟨cur.a, cur.b, cur.size + blk.size⟩ : MatchBlock).size = 0 ∨
          BlockIn a b 0 la 0 lb ⟨cur.a, cur.b, cur.size + blk.size⟩ := by
        right
        rcases hcur with hz | hin'
        · have ha : cur.a = blk.a := by omega
          have hb : cur.b = blk.b := by omega
          obtain ⟨b1, b2, b3, b4, b5, b6⟩ := hblkIn
          unfold BlockIn RunEq
          dsimp only
          refine ⟨by omega, by omega, by omega, by omega, by omega, ?_⟩
          intro t ht
          rw [ha, hb]
          exact b6 t (by omega)
        · exact blockIn_merge a b la lb cur blk hin' hblkIn hadj.1 hadj.2
      have hpw' : List.Pairwise EndLe ((⟨cur.a, cur.b, cur.size + blk.size⟩ : MatchBlock)
          :: rest) := by
        rw [List.pairwise_cons]
        refine ⟨?_, (List.pairwise_cons.mp hpwtail).2⟩
        intro r hr
        have hbr := (List.pairwise_cons.mp hpwtail).1 r hr
        exact ⟨by have := hbr.1; dsimp only; omega, by have := hbr.2; dsimp only; omega⟩
      exact ih _ hcur' hinrest hpw'
    · have hrec := ih blk (Or.inr hblkIn) hinrest hpwtail
      constructor
      · intro out hout
        rw [List.mem_append] at hout
        rcases hout with hc | hr
        · split at hc
          · rename_i hpos
            rw [List.mem_singleton] at hc
            subst hc
            rcases hcur with hz | hi
            · omega
            · exact hi
          · exact absurd hc (List.not_mem_nil out)
        · exact hrec.1 out hr
      · rw [List.pairwise_append]
        refine ⟨?_, hrec.2, ?_⟩
        · split
          · simp
          · exact List.Pairwise.nil
        · intro x hx y hy
          split at hx
          · rw [List.mem_singleton] at hx
            subst hx
            have hge := mergeAdj_ge rest blk hpwtail y hy
            exact ⟨le_trans hEc.1 hge.1, le_trans hEc.2 hge.2⟩
          · exact absurd hx (List.not_mem_nil x)

theorem getMatchingBlocks_sound {α : Type} [DecidableEq α] [Inhabited α] (a b : List α) :
    (∀ blk ∈ getMatchingBlocks a b, BlockIn a b 0 a.length 0 b.length blk ∨
      blk = ⟨a.length, b.length, 0⟩) ∧
    List.Pairwise EndLe (getMatchingBlocks a b) := by
  have hfs := blocksAuxF_sound a b ((a.length - 0) + (b.length - 0) + 1) 0 a.length 0
    b.length (by omega) (by omega) (le_refl _)
  have hba : (∀ blk ∈ blocksAux a b 0 a.length 0 b.length,
      BlockIn a b 0 a.length 0 b.length blk) ∧
      List.Pairwise EndLe (blocksAux a b 0 a.length 0 b.length) := hfs
  have hsort : sortBlocks (blocksAux a b 0 a.length 0 b.length) =
      blocksAux a b 0 a.length 0 b.length :=
    sortBlocks_eq_self _ (pairwise_blockLe_of_endLe _
      (fun blk h => (hba.1 blk h).2.2.2.2.1) hba.2)
  have hpwz : List.Pairwise EndLe ((⟨0, 0, 0⟩ : MatchBlock) ::
      blocksAux a b 0 a.length 0 b.length) := by
    rw [List.pairwise_cons]
    exact ⟨fun blk _ => ⟨Nat.zero_le _, Nat.zero_le _⟩, hba.2⟩
  have hmerge := mergeAdj_sound a b a.length b.length
    (blocksAux a b 0 a.length 0 b.length) ⟨0, 0, 0⟩ (Or.inl rfl) hba.1 hpwz
  unfold getMatchingBlocks
  rw [hsort]
  constructor
  · intro blk hblk
    rw [List.mem_append] at hblk
    rcases hblk with hm | hs
    · exact Or.inl (hmerge.1 blk hm)
    · rw [List.mem_singleton] at hs
      exact Or.inr hs
  · rw [List.pairwise_append]
    refine ⟨hmerge.2, by simp, ?_⟩
    intro x hx y hy
    rw [List.mem_singleton] at hy
    subst hy
    have hxIn := hmerge.1 x hx
    exact ⟨hxIn.2.1, hxIn.2.2.2.1⟩

theorem map_fold_sound : ∀ (l : List MatchBlock) (acc : Nat → Option Nat) (i j : Nat),
    (l.foldl (fun mp blk => fun i =>
      if blk.a ≤ i ∧ i < blk.a + blk.size then some (blk.b + (i - blk.a)) else mp i)
      acc) i = some j →
    (∃ blk, blk ∈ l ∧ blk.a ≤ i ∧ i < blk.a + blk.size ∧ j = blk.b + (i - blk.a)) ∨
      acc i = some j := by
  intro l
  induction l with
  | nil => exact fun acc i j h => Or.inr h
  | cons blk rest ih =>
    intro acc i j h
    rw [List.foldl_cons] at h
    rcases ih _ i j h with ⟨blk', hmem, h1, h2, h3⟩ | hacc
    · exact Or.inl ⟨blk', List.mem_cons_of_mem _ hmem, h1, h2, h3⟩
    · split at hacc
      · rename_i hcond
        exact Or.inl ⟨blk, List.mem_cons_self .., hcond.1, hcond.2,
          (Option.some.inj hacc).symm⟩
      · exact Or.inr hacc

theorem map_fold_no_touch : ∀ (l : List MatchBlock) (acc : Nat → Option Nat) (i : Nat),
    (∀ blk ∈ l, ¬(blk.a ≤ i ∧ i < blk.a + blk.size)) →
    (l.foldl (fun mp blk => fun i =>
      if blk.a ≤ i ∧ i < blk.a + blk.size then some (blk.b + (i - blk.a)) else mp i)
      acc) i = acc i := by
  intro l
  induction l with
  | nil => exact fun acc i _ => rfl
  | cons blk rest ih =>
    intro acc i hnone
    rw [List.foldl_cons, ih _ i (fun b hb => hnone b (List.mem_cons_of_mem _ hb))]
    rw [if_neg (hnone blk (List.mem_cons_self ..))]

theorem map_fold_mem : ∀ (l : List MatchBlock) (acc : Nat → Option Nat) (blk : MatchBlock)
    (i : Nat), blk ∈ l → blk.a ≤ i → i < blk.a + blk.size →
    List.Pairwise EndLe l →
    (l.foldl (fun mp blk => fun i =>
      if blk.a ≤ i ∧ i < blk.a + blk.size then some (blk.b + (i - blk.a)) else mp i)
      acc) i = some (blk.b + (i - blk.a)) := by
  intro l
  induction l with
  | nil => exact fun acc blk i h => absurd h (List.not_mem_nil blk)
  | cons hd rest ih =>
    intro acc blk i hmem h1 h2 hpw
    rw [List.foldl_cons]
    rw [List.mem_cons] at hmem
    rcases hmem with rfl | hmem
    · have hnt : ∀ blk' ∈ rest, ¬(blk'.a ≤ i ∧ i < blk'.a + blk'.size) := by
        intro blk' hblk' hcon
        have hE := (List.pairwise_cons.mp hpw).1 blk' hblk'
        have := hE.1
        omega
      rw [map_fold_no_touch rest _ i hnt]
      rw [if_pos ⟨h1, h2⟩]
    · exact ih _ blk i hmem h1 h2 (List.pairwise_cons.mp hpw).2

/-- The normalized reference tokens (`clean_truth` in the source). -/
def cleanTruth (t : String) : List String := (splitWords t).map clean_word

/-- The normalized recognized tokens (`clean_whisper` in the source). -/
def cleanWhisper (w : List WhisperWord) : List String :=
  w.map (fun x => clean_word x.word)

theorem alignBlocks_def (t : String) (w : List WhisperWord) :
    alignBlocks t w = getMatchingBlocks (cleanTruth t) (cleanWhisper w) := rfl

theorem alignMap_some (t : String) (w : List WhisperWord) (i j : Nat)
    (h : alignMap t w i = some j) :
    ∃ blk, blk ∈ alignBlocks t w ∧ blk.a ≤ i ∧ i < blk.a + blk.size ∧
      j = blk.b + (i - blk.a) ∧
      BlockIn (cleanTruth t) (cleanWhisper w) 0 (cleanTruth t).length 0
        (cleanWhisper w).length blk := by
  unfold alignMap truth_to_whisper_map at h
  rcases map_fold_sound (alignBlocks t w) _ i j h with ⟨blk, hmem, h1, h2, h3⟩ | habs
  · refine ⟨blk, hmem, h1, h2, h3, ?_⟩
    rw [alignBlocks_def] at hmem
    rcases (getMatchingBlocks_sound (cleanTruth t) (cleanWhisper w)).1 blk hmem
      with hin | hsent
    · exact hin
    · exfalso
      subst hsent
      dsimp only at h1 h2
      omega
  · exact absurd habs (by simp)

theorem alignMap_of_block (t : String) (w : List WhisperWord) (blk : MatchBlock) (i : Nat)
    (hmem : blk ∈ alignBlocks t w) (h1 : blk.a ≤ i) (h2 : i < blk.a + blk.size) :
    alignMap t w i = some (blk.b + (i - blk.a)) := by
  unfold alignMap truth_to_whisper_map
  refine map_fold_mem (alignBlocks t w) _ blk i hmem h1 h2 ?_
  rw [alignBlocks_def]
  exact (getMatchingBlocks_sound (cleanTruth t) (cleanWhisper w)).2

theorem alignMap_mono (t : String) (w : List WhisperWord) (i i' j j' : Nat)
    (h : alignMap t w i = some j) (h' : alignMap t w i' = some j') (hii : i < i') :
    j < j' := by
  obtain ⟨blk, hmem, h1, h2, h3, hin⟩ := alignMap_some t w i j h
  obtain ⟨blk', hmem', h1', h2', h3', hin'⟩ := alignMap_some t w i' j' h'
  have hpw := (getMatchingBlocks_sound (cleanTruth t) (cleanWhisper w)).2
  rw [← alignBlocks_def] at hpw
  obtain ⟨s, t2, hsplit⟩ := List.append_of_mem hmem
  rw [hsplit] at hpw hmem'
  rw [List.pairwise_append] at hpw
  rcases List.mem_append.mp hmem' with hs | hbt
  · have hE := hpw.2.2 blk' hs blk (List.mem_cons_self ..)
    have := hE.1
    omega
  · rcases List.mem_cons.mp hbt with heq | ht2
    · subst heq
      omega
    · have hE := (List.pairwise_cons.mp hpw.2.1).1 blk' ht2
      have := hE.2
      omega

theorem alignMap_clean_eq (text : String) (whisper : List WhisperWord) (i j : Nat)
    (h : alignMap text whisper i = some j) :
    i < (splitWords text).length ∧ j < whisper.length ∧
    clean_word ((splitWords text).getD i "") =
      clean_word ((whisper.getD j default).word) := by
  obtain ⟨blk, hmem, h1, h2, h3, hin⟩ := alignMap_some text whisper i j h
  obtain ⟨b1, b2, b3, b4, b5, b6⟩ := hin
  have hclen : (cleanTruth text).length = (splitWords text).length := by
    unfold cleanTruth
    rw [List.length_map]
  have hwlen : (cleanWhisper whisper).length = whisper.length := by
    unfold cleanWhisper
    rw [List.length_map]
  have hilen : i < (splitWords text).length := by omega
  have hjlen : j < whisper.length := by omega
  refine ⟨hilen, hjlen, ?_⟩
  have heq := b6 (i - blk.a) (by omega)
  rw [show blk.a + (i - blk.a) = i from by omega, ← h3] at heq
  have hT : (cleanTruth text)[i]? = some (clean_word ((splitWords text).getD i "")) := by
    unfold cleanTruth
    rw [List.getElem?_map, List.getElem?_eq_getElem hilen]
    rw [show (splitWords text).getD i "" = (splitWords text)[i] from by
      rw [List.getD_eq_getElem?_getD, List.getElem?_eq_getElem hilen]; rfl]
    rfl
  have hW : (cleanWhisper whisper)[j]? =
      some (clean_word ((whisper.getD j default).word)) := by
    unfold cleanWhisper
    rw [List.getElem?_map, List.getElem?_eq_getElem hjlen]
    rw [show whisper.getD j default = whisper[j] from by
      rw [List.getD_eq_getElem?_getD, List.getElem?_eq_getElem hjlen]; rfl]
    rfl
  rw [hT, hW] at heq
  exact Option.some.inj heq

/-- Claim C9: whenever the index map sends reference index `i` to
recognized index `j`, the two indices are in range and the canonical
(cleaned) tokens agree. -/
theorem claimC9 (text : String) (whisper : List WhisperWord) (i j : Nat)
    (h : alignMap text whisper i = some j) :
    i < (splitWords text).length ∧ j < whisper.length ∧
    clean_word ((splitWords text).getD i "") =
      clean_word ((whisper.getD j default).word) :=
  alignMap_clean_eq text whisper i j h

theorem claimC9_witness :
    alignMap "a" [⟨"a", 0, 0⟩] 0 = some 0 ∧
    (0 < (splitWords "a").length ∧ 0 < ([⟨"a", 0, 0⟩] : List WhisperWord).length ∧
      clean_word ((splitWords "a").getD 0 "") =
        clean_word ((([⟨"a", 0, 0⟩] : List WhisperWord).getD 0 default).word)) :=
  ⟨by decide, claimC9 "a" [⟨"a", 0, 0⟩] 0 0 (by decide)⟩

/-- Claim C5: a reference/recognized index pair that lies inside a computed
matching block yields a direct match in the output: the Whisper start/end
are copied exactly and the record is flagged `matched = true`. -/
theorem claimC5 (text : String) (whisper : List WhisperWord) (i j : Nat)
    (blk : MatchBlock) (hblk : blk ∈ alignBlocks text whisper)
    (hia : blk.a ≤ i) (hlt : i < blk.a + blk.size) (hj : j = blk.b + (i - blk.a)) :
    i < (splitWords text).length ∧ j < whisper.length ∧
    (swAt (force_align text whisper) i).start = some ((whisper.getD j default).start) ∧
    (swAt (force_align text whisper) i).end_ = some ((whisper.getD j default).end_) ∧
    (swAt (force_align text whisper) i).matched = true := by
  subst hj
  have hmap := alignMap_of_block text whisper blk i hblk hia hlt
  have hrest := alignMap_clean_eq text whisper i (blk.b + (i - blk.a)) hmap
  refine ⟨hrest.1, hrest.2.1, ?_, ?_, ?_⟩ <;>
    rw [out_matched text whisper i (blk.b + (i - blk.a)) hrest.1 hmap]

theorem claimC5_witness :
    (⟨0, 0, 1⟩ : MatchBlock) ∈ alignBlocks "a" [⟨"a", 1/10000, 1/5⟩] ∧
    ((swAt (force_align "a" [⟨"a", 1/10000, 1/5⟩]) 0).start =
      some ((([⟨"a", 1/10000, 1/5⟩] : List WhisperWord).getD 0 default).start) ∧
     (swAt (force_align "a" [⟨"a", 1/10000, 1/5⟩]) 0).matched = true) := by
  have hmem : (⟨0, 0, 1⟩ : MatchBlock) ∈ alignBlocks "a" [⟨"a", 1/10000, 1/5⟩] := by
    rw [show alignBlocks "a" [⟨"a", 1/10000, 1/5⟩] = [⟨0, 0, 1⟩, ⟨1, 1, 0⟩] from by decide]
    exact List.mem_cons_self ..
  have h := claimC5 "a" [⟨"a", 1/10000, 1/5⟩] 0 0 ⟨0, 0, 1⟩ hmem (by decide) (by decide)
    (by decide)
  exact ⟨hmem, h.2.2.1, h.2.2.2.2⟩

/-- Numeric core of one interpolation step between grid anchors `P ≤ N` with
divisor `d ≥ 2`: the rounded start stays in `[P, N]`, the rounded end stays
in `[start, N]`. -/
theorem interp_bounds (P N d : ℚ) (hd : 2 ≤ d) (hPN : P ≤ N)
    (hgP : Grid P) (hgN : Grid N) :
    P ≤ round3 (P + (N - P) / d) ∧
    round3 (P + (N - P) / d) ≤ N ∧
    round3 (P + (N - P) / d) ≤
      round3 (round3 (P + (N - P) / d) + (N - P) / d * (8/10)) ∧
    round3 (round3 (P + (N - P) / d) + (N - P) / d * (8/10)) ≤ N := by
  have hd0 : (0:ℚ) < d := by linarith
  have hs0 : 0 ≤ (N - P) / d := div_nonneg (by linarith) (le_of_lt hd0)
  have hsle : (N - P) / d ≤ N - P := div_le_self (by linarith) (by linarith)
  set s : ℚ := (N - P) / d with hs
  have hds : d * s = N - P := by
    rw [hs, mul_comm]
    exact div_mul_cancel₀ _ (ne_of_gt hd0)
  have hx1 : P ≤ round3 (P + s) := grid_le_round3 hgP (by linarith)
  have hx2 : round3 (P + s) ≤ N := round3_le_grid hgN (by linarith)
  set x : ℚ := round3 (P + s) with hxdef
  have hgx : Grid x := round3_grid _
  have hs8 : 0 ≤ s * (8/10) := mul_nonneg hs0 (by norm_num)
  have hy1 : x ≤ round3 (x + s * (8/10)) := grid_le_round3 hgx (by linarith)
  have hxle : x ≤ P + s + 1/2000 := by
    have h := round3_le_add (P + s)
    rw [← hxdef] at h
    exact h
  have hy2 : round3 (x + s * (8/10)) ≤ N := by
    rcases lt_or_le (s * (8/10)) (1/2000) with hsmall | hbig
    · exact round3_le_grid_of_lt hgN (by linarith)
    · have hsge : 1/1600 ≤ s := by linarith
      have hd2 : (0:ℚ) ≤ s * (d - 2) := mul_nonneg hs0 (by linarith)
      have h18 : (18/10) * s ≤ (9/10) * (N - P) := by nlinarith [hds, hd2]
      have h01 : 1/8000 ≤ (1/10) * (N - P) := by nlinarith [hds, hd2, hsge]
      exact round3_le_grid_of_lt hgN (by linarith)
  exact ⟨hx1, hx2, hy1, hy2⟩

/-- Looking forward from index `i`, either every in-range reference index is
unmatched, or there is a first matched index `q` with nothing matched
strictly before it (from `i` on). -/
theorem firstAnchorFrom (t : String) (w : List WhisperWord) (i : Nat) :
    (∀ k, i ≤ k → k < (splitWords t).length → alignMap t w k = none) ∨
    (∃ q jq, i ≤ q ∧ q < (splitWords t).length ∧ alignMap t w q = some jq ∧
      ∀ k, i ≤ k → k < q → alignMap t w k = none) := by
  rcases Nat.lt_or_ge i (splitWords t).length with hi | hi
  · rcases halign : alignMap t w i with _ | j
    · rcases firstAnchorFrom t w (i + 1) with hnone | ⟨q, jq, hq1, hq2, hjq, hmid⟩
      · left
        intro k hk1 hk2
        rcases Nat.eq_or_lt_of_le hk1 with heq | hk
        · rw [← heq]; exact halign
        · exact hnone k hk hk2
      · right
        refine ⟨q, jq, by omega, hq2, hjq, ?_⟩
        intro k hk1 hk2
        rcases Nat.eq_or_lt_of_le hk1 with heq | hk
        · rw [← heq]; exact halign
        · exact hmid k hk hk2
    · right
      exact ⟨i, j, le_rfl, hi, halign, fun k hk1 hk2 => absurd hk1 (by omega)⟩
  · left
    intro k hk1 hk2
    exact absurd hk2 (by omega)
termination_by (splitWords t).length - i
decreasing_by omega

/-- Invariant of the fill loop across a run of unmatched indices strictly
between two matched anchors `p < q` (whisper indices `jp`, `jq`): after
processing indices below `m`, the running previous end time lies between the
anchor times, is on the millisecond grid, and all interpolated starts so far
are sandwiched and non-decreasing. -/
theorem run_inv (t : String) (w : List WhisperWord) (p q jp jq : Nat)
    (hp : alignMap t w p = some jp) (hq : alignMap t w q = some jq)
    (hpq : p < q) (hmid : ∀ k, p < k → k < q → alignMap t w k = none)
    (hPN : (w.getD jp default).end_ ≤ (w.getD jq default).start)
    (hgP : Grid ((w.getD jp default).end_)) (hgN : Grid ((w.getD jq default).start)) :
    ∀ m, p < m → m ≤ q →
      (w.getD jp default).end_ ≤ outEnd t w (m - 1) ∧
      outEnd t w (m - 1) ≤ (w.getD jq default).start ∧
      Grid (outEnd t w (m - 1)) ∧
      (∀ r, p < r → r < m → (w.getD jp default).end_ ≤ outStart t w r ∧
        outStart t w r ≤ outEnd t w (m - 1)) ∧
      (∀ r, p < r → r + 1 < m → outStart t w r ≤ outStart t w (r + 1)) := by
  intro m hm
  induction m, hm using Nat.le_induction with
  | base =>
    intro _
    simp only [Nat.succ_sub_one]
    have hplen : p < (splitWords t).length := (alignMap_clean_eq t w p jp hp).1
    have hout := out_matched t w p jp hplen hp
    have hEp : outEnd t w p = (w.getD jp default).end_ := by
      unfold outEnd
      rw [hout]
      rfl
    refine ⟨hEp.ge, hEp.le.trans hPN, by rw [hEp]; exact hgP, ?_, ?_⟩
    · intro r hr1 hr2
      exact absurd hr2 (by omega)
    · intro r hr1 hr2
      exact absurd hr2 (by omega)
  | succ n hn ih =>
    intro hm2
    simp only [Nat.add_sub_cancel]
    obtain ⟨hE1, hE2, hgE, hstarts, hchain⟩ := ih (by omega)
    have hqlen : q < (splitWords t).length := (alignMap_clean_eq t w q jq hq).1
    have hu : alignMap t w n = none := hmid n (by omega) (by omega)
    have hPeq : outEnd t w (n - 1) =
        if n = 0 then 0 else (swAt (force_align t w) (n - 1)).end_.getD 0 := by
      rw [if_neg (show ¬ n = 0 by omega)]
      rfl
    have hrec := out_unmatched_anchor t w n q jq ((w.getD jq default).start)
      (outEnd t w (n - 1)) (by omega) hu hPeq (by omega) hqlen
      (fun k hk1 hk2 => hmid k (by omega) hk2) hq rfl
    have hd : (2:ℚ) ≤ (q:ℚ) - (n:ℚ) + 1 := by
      have h := (show ((n:ℚ) + 1 ≤ (q:ℚ)) from by exact_mod_cast (show n + 1 ≤ q by omega))
      linarith
    obtain ⟨hb1, hb2, hb3, hb4⟩ := interp_bounds (outEnd t w (n - 1))
      ((w.getD jq default).start) ((q:ℚ) - (n:ℚ) + 1) hd hE2 hgE hgN
    have hsn : outStart t w n = round3 (outEnd t w (n - 1) +
        ((w.getD jq default).start - outEnd t w (n - 1)) / ((q:ℚ) - (n:ℚ) + 1)) := by
      unfold outStart
      rw [hrec]
      rfl
    have hen : outEnd t w n = round3 (round3 (outEnd t w (n - 1) +
        ((w.getD jq default).start - outEnd t w (n - 1)) / ((q:ℚ) - (n:ℚ) + 1)) +
        ((w.getD jq default).start - outEnd t w (n - 1)) / ((q:ℚ) - (n:ℚ) + 1) * (8/10)) := by
      unfold outEnd
      rw [hrec]
      rfl
    have hEx : outEnd t w (n - 1) ≤ outStart t w n := by rw [hsn]; exact hb1
    have hxN : outStart t w n ≤ (w.getD jq default).start := by rw [hsn]; exact hb2
    have hxy : outStart t w n ≤ outEnd t w n := by rw [hsn, hen]; exact hb3
    have hyN : outEnd t w n ≤ (w.getD jq default).start := by rw [hen]; exact hb4
    have hgy : Grid (outEnd t w n) := by rw [hen]; exact round3_grid _
    refine ⟨le_trans hE1 (le_trans hEx hxy), hyN, hgy, ?_, ?_⟩
    · intro r hr1 hr2
      rcases Nat.lt_or_ge r n with hrn | hrn
      · obtain ⟨ha, hb⟩ := hstarts r hr1 hrn
        exact ⟨ha, le_trans hb (le_trans hEx hxy)⟩
      · have hreq : r = n := by omega
        rw [hreq]
        exact ⟨le_trans hE1 hEx, hxy⟩
    · intro r hr1 hr2
      rcases Nat.lt_or_ge (r + 1) n with hrn | hrn
      · exact hchain r hr1 hrn
      · have hreq : r + 1 = n := by omega
        have hsr : outStart t w r ≤ outEnd t w (n - 1) := (hstarts r hr1 (by omega)).2
        rw [hreq]
        exact le_trans hsr hEx

/-- Claim C6 (amended): within a gap bounded by two matched anchors whose
times are non-decreasing (`prev_end ≤ next_start`) and lie exactly on the
millisecond rounding grid, all interpolated starts are non-decreasing and
fall within `[prev_end, next_start]`. (The unamended claim fails on anchor
times off the grid: rounding can pull an interpolated start below the
preceding anchor end.) -/
theorem claimC6_amended (text : String) (whisper : List WhisperWord) (p q jp jq : Nat)
    (hp : alignMap text whisper p = some jp)
    (hq : alignMap text whisper q = some jq)
    (hpq : p < q)
    (hmid : ∀ k, p < k → k < q → alignMap text whisper k = none)
    (hPN : (whisper.getD jp default).end_ ≤ (whisper.getD jq default).start)
    (hgP : Grid ((whisper.getD jp default).end_))
    (hgN : Grid ((whisper.getD jq default).start)) :
    ∀ k, p < k → k < q →
      (whisper.getD jp default).end_ ≤ outStart text whisper k ∧
      outStart text whisper k ≤ (whisper.getD jq default).start ∧
      (k + 1 < q → outStart text whisper k ≤ outStart text whisper (k + 1)) := by
  intro k hk1 hk2
  obtain ⟨hE1, hE2, hgE, hstarts, hchain⟩ :=
    run_inv text whisper p q jp jq hp hq hpq hmid hPN hgP hgN q (by omega) le_rfl
  obtain ⟨h1, h2⟩ := hstarts k hk1 hk2
  exact ⟨h1, le_trans h2 hE2, fun hk3 => hchain k hk1 hk3⟩

theorem claimC6_amended_witness :
    (([⟨"a", 0, 1/10⟩, ⟨"d", 1, 11/10⟩] : List WhisperWord).getD 0 default).end_ ≤
      outStart "a b c d" [⟨"a", 0, 1/10⟩, ⟨"d", 1, 11/10⟩] 1 ∧
    outStart "a b c d" [⟨"a", 0, 1/10⟩, ⟨"d", 1, 11/10⟩] 1 ≤
      (([⟨"a", 0, 1/10⟩, ⟨"d", 1, 11/10⟩] : List WhisperWord).getD 1 default).start ∧
    (1 + 1 < 3 → outStart "a b c d" [⟨"a", 0, 1/10⟩, ⟨"d", 1, 11/10⟩] 1 ≤
      outStart "a b c d" [⟨"a", 0, 1/10⟩, ⟨"d", 1, 11/10⟩] 2) :=
  claimC6_amended "a b c d" [⟨"a", 0, 1/10⟩, ⟨"d", 1, 11/10⟩] 0 3 0 1
    (by decide) (by decide) (by decide)
    (fun k hk1 hk2 => by interval_cases k <;> decide)
    (by show (1:ℚ)/10 ≤ 1; norm_num)
    ⟨100, by show (1:ℚ)/10 = ((100:ℤ):ℚ)/1000; norm_num⟩
    ⟨1000, by show (1:ℚ) = ((1000:ℤ):ℚ)/1000; norm_num⟩
    1 (by decide) (by decide)

/-- Rounding a grid value perturbed by strictly less than half a millisecond
returns the grid value itself. -/
theorem round3_grid_near (g d : ℚ) (hg : Grid g) (hlo : -(1/2000) < d)
    (hhi : d < 1/2000) : round3 (g + d) = g := by
  obtain ⟨z, hz⟩ := hg
  have h1 : ((z : ℚ)/1000 + d) * 1000 = (z : ℚ) + 1000 * d := by ring
  rw [hz]
  rw [round3_eq ((z : ℚ)/1000 + d) z (by rw [h1]; linarith) (by rw [h1]; linarith)]

/-- Numeric core of one interpolation step without grid hypotheses on the
anchors: if the running previous end `E` exceeds the next anchor time `N` by
at most one millisecond and is grid-valued whenever it does exceed it, then
the step's rounded start is at most its rounded end, and the rounded end
again exceeds `N` by at most one millisecond. -/
theorem interp_ok (E N d : ℚ) (hd : 2 ≤ d) (hEN : E ≤ N + 1/1000)
    (hov : N < E → Grid E) :
    round3 (E + (N - E) / d) ≤
      round3 (round3 (E + (N - E) / d) + (N - E) / d * (8/10)) ∧
    round3 (round3 (E + (N - E) / d) + (N - E) / d * (8/10)) ≤ N + 1/1000 := by
  have hd0 : (0:ℚ) < d := by linarith
  set s : ℚ := (N - E) / d with hs
  have hds : d * s = N - E := by
    rw [hs, mul_comm]
    exact div_mul_cancel₀ _ (ne_of_gt hd0)
  set x : ℚ := round3 (E + s) with hxdef
  have hgx : Grid x := round3_grid _
  rcases le_or_lt E N with hle | hgt
  · have hs0 : 0 ≤ s := by
      rw [hs]
      exact div_nonneg (by linarith) (le_of_lt hd0)
    have hs8 : 0 ≤ s * (8/10) := mul_nonneg hs0 (by norm_num)
    have hy1 : x ≤ round3 (x + s * (8/10)) := grid_le_round3 hgx (by linarith)
    have hxle : x ≤ E + s + 1/2000 := by
      have h := round3_le_add (E + s)
      rw [← hxdef] at h
      exact h
    have hd2 : (0:ℚ) ≤ s * (d - 2) := mul_nonneg hs0 (by linarith)
    have h18 : (18/10) * s ≤ (9/10) * (N - E) := by nlinarith [hds, hd2]
    have hy2 : round3 (x + s * (8/10)) ≤ N + 1/1000 := by
      have h := round3_le_add (x + s * (8/10))
      linarith
    exact ⟨hy1, hy2⟩
  · have hgE : Grid E := hov hgt
    have hsneg : s < 0 := by
      rw [hs]
      exact div_neg_of_neg_of_pos (by linarith) hd0
    have hds2 : (d - 2) * s ≤ 0 :=
      mul_nonpos_of_nonneg_of_nonpos (by linarith) (le_of_lt hsneg)
    have hsb : -(1/2000) ≤ s := by nlinarith [hds, hds2]
    have hxleE : x ≤ E := by
      rw [hxdef]
      exact round3_le_grid hgE (by linarith)
    have hy : round3 (x + s * (8/10)) = x :=
      round3_grid_near x (s * (8/10)) hgx (by linarith) (by linarith)
    exact ⟨hy.ge, by rw [hy]; linarith⟩

/-- Claim C3 (amended): when every recognized word has `0 ≤ start ≤ end` and
the recognized sequence is chronological (each word ends no later than any
later word starts), every output record satisfies `start ≤ end` — no grid
condition on the recognized times is needed: rounding can push a filled end
past the next anchor only by less than a millisecond, and such an overshoot
is itself a rounded (grid) value, so the following steps collapse to
`start = end`. (The unamended claim fails on non-monotonic recognized
timestamps, which produce `start > end`.) -/
theorem claimC3_amended (text : String) (whisper : List WhisperWord)
    (hw : ∀ j, j < whisper.length →
      0 ≤ (whisper.getD j default).start ∧
      (whisper.getD j default).start ≤ (whisper.getD j default).end_)
    (hchron : ∀ j j', j < j' → j' < whisper.length →
      (whisper.getD j default).end_ ≤ (whisper.getD j' default).start) :
    ∀ r ∈ force_align text whisper, ∀ x y, r.start = some x → r.end_ = some y →
      x ≤ y := by
  have main : ∀ i, i ≤ (splitWords text).length →
      (∀ k, k < i → ∀ x y, (swAt (force_align text whisper) k).start = some x →
        (swAt (force_align text whisper) k).end_ = some y → x ≤ y) ∧
      (∀ q jq, i ≤ q → alignMap text whisper q = some jq →
        prevE text whisper i ≤ (whisper.getD jq default).start + 1/1000 ∧
        ((whisper.getD jq default).start < prevE text whisper i →
          Grid (prevE text whisper i))) := by
    intro i
    induction i with
    | zero =>
      intro _
      have h0 : prevE text whisper 0 = 0 := by
        unfold prevE
        rw [if_pos rfl]
      refine ⟨fun k hk => absurd hk (Nat.not_lt_zero k), ?_⟩
      intro q jq hq1 hq2
      have hjlen := (alignMap_clean_eq text whisper q jq hq2).2.1
      constructor
      · rw [h0]
        have h := (hw jq hjlen).1
        linarith
      · rw [h0]
        intro _
        exact grid_zero
    | succ i ih =>
      intro hin
      obtain ⟨IA, hB⟩ := ih (by omega)
      have hprevSucc : prevE text whisper (i + 1) = outEnd text whisper i := by
        unfold prevE outEnd
        rw [if_neg (show ¬ i + 1 = 0 by omega)]
        rfl
      rcases halign : alignMap text whisper i with _ | j
      · rcases firstAnchorFrom text whisper (i + 1) with hnone | ⟨q, jq, hq1, hq2, hjq, hmidl⟩
        · -- tail: no anchor anywhere after i
          have hrec := out_unmatched_tail text whisper i (prevE text whisper i) (by omega)
            halign rfl (fun k hk1 hk2 => hnone k (by omega) hk2)
          have hxy : round3 (prevE text whisper i + 1/2) ≤
              round3 (round3 (prevE text whisper i + 1/2) + (1/2) * (8/10)) :=
            grid_le_round3 (round3_grid _) (le_add_of_nonneg_right (by norm_num))
          refine ⟨?_, ?_⟩
          · intro k hk
            rcases Nat.lt_or_ge k i with hki | hki
            · exact IA k hki
            · have hki' : k = i := by omega
              rw [hki']
              intro x y hxs hys
              rw [hrec] at hxs hys
              have hx1 := Option.some.inj hxs
              have hy1 := Option.some.inj hys
              rw [← hx1, ← hy1]
              exact hxy
          · intro q' jq' hq'1 hq'2
            have hqlen := (alignMap_clean_eq text whisper q' jq' hq'2).1
            have hcon := hnone q' hq'1 hqlen
            rw [hcon] at hq'2
            exact Option.noConfusion hq'2
        · -- a following anchor q exists
          obtain ⟨hEN, hov⟩ := hB q jq (by omega) hjq
          have hjqlen := (alignMap_clean_eq text whisper q jq hjq).2.1
          have hrec := out_unmatched_anchor text whisper i q jq
            ((whisper.getD jq default).start) (prevE text whisper i) (by omega) halign rfl
            (by omega) hq2 (fun k hk1 hk2 => hmidl k (by omega) hk2) hjq rfl
          have hd : (2:ℚ) ≤ (q:ℚ) - (i:ℚ) + 1 := by
            have h := (show ((i:ℚ) + 1 ≤ (q:ℚ)) from by
              exact_mod_cast (show i + 1 ≤ q by omega))
            linarith
          obtain ⟨hxy, hyN⟩ := interp_ok (prevE text whisper i)
            ((whisper.getD jq default).start) ((q:ℚ) - (i:ℚ) + 1) hd hEN hov
          have hye : outEnd text whisper i = round3 (round3 (prevE text whisper i +
              ((whisper.getD jq default).start - prevE text whisper i) /
                ((q:ℚ) - (i:ℚ) + 1)) +
              ((whisper.getD jq default).start - prevE text whisper i) /
                ((q:ℚ) - (i:ℚ) + 1) * (8/10)) := by
            unfold outEnd
            rw [hrec]
            rfl
          refine ⟨?_, ?_⟩
          · intro k hk
            rcases Nat.lt_or_ge k i with hki | hki
            · exact IA k hki
            · have hki' : k = i := by omega
              rw [hki']
              intro x y hxs hys
              rw [hrec] at hxs hys
              have hx1 := Option.some.inj hxs
              have hy1 := Option.some.inj hys
              rw [← hx1, ← hy1]
              exact hxy
          · intro q' jq' hq'1 hq'2
            refine ⟨?_, ?_⟩
            · rw [hprevSucc, hye]
              rcases Nat.lt_or_ge q' q with hlt | hge
              · have hcon := hmidl q' (by omega) hlt
                rw [hcon] at hq'2
                exact Option.noConfusion hq'2
              · rcases Nat.eq_or_lt_of_le hge with heq | hgt
                · rw [heq] at hjq
                  rw [hjq] at hq'2
                  have hjj := Option.some.inj hq'2
                  rw [← hjj]
                  exact hyN
                · have hj' := alignMap_mono text whisper q q' jq jq' hjq hq'2 hgt
                  have hjq'len := (alignMap_clean_eq text whisper q' jq' hq'2).2.1
                  have hse := (hw jq hjqlen).2
                  have hch := hchron jq jq' hj' hjq'len
                  linarith
            · rw [hprevSucc, hye]
              intro _
              exact round3_grid _
      · -- matched at i
        have hjlen := (alignMap_clean_eq text whisper i j halign).2.1
        have hrec := out_matched text whisper i j (by omega) halign
        have hye : outEnd text whisper i = (whisper.getD j default).end_ := by
          unfold outEnd
          rw [hrec]
          rfl
        refine ⟨?_, ?_⟩
        · intro k hk
          rcases Nat.lt_or_ge k i with hki | hki
          · exact IA k hki
          · have hki' : k = i := by omega
            rw [hki']
            intro x y hxs hys
            rw [hrec] at hxs hys
            have hx1 := Option.some.inj hxs
            have hy1 := Option.some.inj hys
            rw [← hx1, ← hy1]
            exact (hw j hjlen).2
        · intro q' jq' hq'1 hq'2
          have hj' := alignMap_mono text whisper i q' j jq' halign hq'2 (by omega)
          have hjq'len := (alignMap_clean_eq text whisper q' jq' hq'2).2.1
          have hch := hchron j jq' hj' hjq'len
          refine ⟨?_, ?_⟩
          · rw [hprevSucc, hye]
            linarith
          · rw [hprevSucc, hye]
            intro hlt
            exact absurd hch (not_le.mpr hlt)
  intro r hr x y hxs hys
  rw [List.mem_iff_getElem] at hr
  obtain ⟨k, hk, hkr⟩ := hr
  have hkn : k < (splitWords text).length := by
    rw [← length_force_align text whisper]
    exact hk
  have hmain := (main (splitWords text).length le_rfl).1 k hkn x y
  rw [swAt_eq_getElem _ k hk, hkr] at hmain
  exact hmain hxs hys

theorem claimC3_amended_witness :
    (swAt (force_align "a b c d" [⟨"a", 0, 1/10⟩, ⟨"d", 1, 11/10⟩]) 1).start =
      some (2/5) ∧
    (swAt (force_align "a b c d" [⟨"a", 0, 1/10⟩, ⟨"d", 1, 11/10⟩]) 1).end_ =
      some (16/25) ∧
    (2:ℚ)/5 ≤ 16/25 := by
  have hx : (swAt (force_align "a b c d" [⟨"a", 0, 1/10⟩, ⟨"d", 1, 11/10⟩]) 1).start =
      some (2/5) := by rw [fullGap_out1]
  have hy : (swAt (force_align "a b c d" [⟨"a", 0, 1/10⟩, ⟨"d", 1, 11/10⟩]) 1).end_ =
      some (16/25) := by rw [fullGap_out1]
  have hlen : 1 < (force_align "a b c d" [⟨"a", 0, 1/10⟩, ⟨"d", 1, 11/10⟩]).length := by
    rw [length_force_align]
    decide
  have hmem : swAt (force_align "a b c d" [⟨"a", 0, 1/10⟩, ⟨"d", 1, 11/10⟩]) 1 ∈
      force_align "a b c d" [⟨"a", 0, 1/10⟩, ⟨"d", 1, 11/10⟩] := by
    rw [swAt_eq_getElem _ 1 hlen]
    exact List.getElem_mem hlen
  refine ⟨hx, hy, ?_⟩
  refine claimC3_amended "a b c d" [⟨"a", 0, 1/10⟩, ⟨"d", 1, 11/10⟩] ?_ ?_ _ hmem
    (2/5) (16/25) hx hy
  · intro j hj
    have hj2 : j < 2 := hj
    interval_cases j
    · exact ⟨le_refl 0, by show (0:ℚ) ≤ 1/10; norm_num⟩
    · exact ⟨by show (0:ℚ) ≤ 1; norm_num, by show (1:ℚ) ≤ 11/10; norm_num⟩
  · intro j j' h1 h2
    have h22 : j' < 2 := h2
    interval_cases j' <;> interval_cases j
    show (1:ℚ)/10 ≤ 1
    norm_num

end LyricsFlow

